import Mathlib

/-!
Verification of the rollback-url-tagging migration (src/main.go).

The Go program is embedded shallowly at the byte level: a Go `string` is a
`List Nat` of byte values (each < 256 for real inputs).  The URL sanitizer
`removeTagParamsFromURL` is built, as in the source, on Go's `net/url`
standard library (`url.Parse`, `URL.Query`, `Values.Del`, `Values.Encode`,
`URL.String`), so those library functions are embedded here as well,
following the Go standard library sources (go1.21 `net/url/url.go`).
The three table migrators are embedded as pure functions over an abstract
table (a list of rows standing for the rows matched by the SQL filter),
with database writes collected into an explicit list of issued UPDATEs.
-/

namespace RollbackUrlTagging

set_option maxRecDepth 8000

/-- A Go string, as its sequence of bytes. -/
abbrev Str := List Nat

/-- Byte string of an ASCII Lean string literal (used for concrete test inputs;
all literals used are ASCII, where UTF-8 bytes coincide with code points). -/
def strB (s : String) : Str := s.data.map Char.toNat

/-- `strings.Cut(s, sep)` for a one-byte separator: (before, after, found). -/
def cut (s : Str) (c : Nat) : Str × Str × Bool :=
  match s with
  | [] => ([], [], false)
  | b :: rest =>
    if b = c then ([], rest, true)
    else
      let r := cut rest c
      (b :: r.1, r.2.1, r.2.2)

/-- `strings.Index(s, one-byte sep)`-based split used by `parse` for the
authority: (s[:i], s[i:]) at the first occurrence, or (s, "") if absent. -/
def breakAt (s : Str) (c : Nat) : Str × Str :=
  match s with
  | [] => ([], [])
  | b :: rest =>
    if b = c then ([], b :: rest)
    else
      let r := breakAt rest c
      (b :: r.1, r.2)

/-- `strings.Split(s, sep)` for a one-byte separator.  Never returns `[]`
(splitting the empty string yields one empty piece, as in Go). -/
def splitB (s : Str) (c : Nat) : List Str :=
  match s with
  | [] => [[]]
  | b :: rest =>
    if b = c then [] :: splitB rest c
    else
      match splitB rest c with
      | p :: ps => (b :: p) :: ps
      | [] => [[b]]

/-- First index at which `pat` occurs as a contiguous substring
(`strings.Index` for a multi-byte pattern). -/
def indexOfSub (s pat : Str) : Option Nat :=
  if pat.isPrefixOf s then some 0
  else
    match s with
    | [] => none
    | _ :: rest => (indexOfSub rest pat).map (· + 1)

/-- Last index of byte `c` in `s` (`strings.LastIndex` for one byte). -/
def lastIndexOf (s : Str) (c : Nat) : Option Nat :=
  match s with
  | [] => none
  | b :: rest =>
    match lastIndexOf rest c with
    | some i => some (i + 1)
    | none => if b = c then some 0 else none

def hasPrefixB (s pre : Str) : Bool := pre.isPrefixOf s

def hasSuffixB (s suf : Str) : Bool := suf.isSuffixOf s

/-- `strings.TrimRight(s, "/")`: remove all trailing `/` bytes. -/
def trimRightSlash (s : Str) : Str := (s.reverse.dropWhile (· = 47)).reverse

/-- `strings.Trim(s, "/")`: remove all leading and trailing `/` bytes. -/
def trimSlashes (s : Str) : Str := trimRightSlash (s.dropWhile (· = 47))

@[simp] theorem cut_nil (c : Nat) : cut [] c = ([], [], false) := rfl

theorem cut_found_of_mem {s : Str} {c : Nat} (h : c ∈ s) : (cut s c).2.2 = true := by
  induction s with
  | nil => cases h
  | cons b rest ih =>
    simp only [cut]
    by_cases hb : b = c
    · simp [hb]
    · have : c ∈ rest := by
        rcases List.mem_cons.mp h with h1 | h1
        · exact absurd h1.symm hb
        · exact h1
      simp [hb, ih this]

theorem cut_not_found {s : Str} {c : Nat} (h : c ∉ s) :
    cut s c = (s, [], false) := by
  induction s with
  | nil => rfl
  | cons b rest ih =>
    have hb : b ≠ c := fun hc => h (hc ▸ List.mem_cons_self b rest)
    have hr : c ∉ rest := fun hc => h (List.mem_cons_of_mem _ hc)
    simp [cut, hb, ih hr]

/-- Cutting at the separator's first occurrence: if `c ∉ a`, then
`cut (a ++ c :: b) c = (a, b, true)`. -/
theorem cut_append {a b : Str} {c : Nat} (h : c ∉ a) :
    cut (a ++ c :: b) c = (a, b, true) := by
  induction a with
  | nil => simp [cut]
  | cons x xs ih =>
    have hx : x ≠ c := fun hc => h (hc ▸ List.mem_cons_self x xs)
    have hxs : c ∉ xs := fun hc => h (List.mem_cons_of_mem _ hc)
    simp [cut, hx, ih hxs]

theorem cut_pre_subset {s : Str} {c : Nat} : ∀ b ∈ (cut s c).1, b ∈ s := by
  induction s with
  | nil => simp [cut]
  | cons x xs ih =>
    intro b hb
    simp only [cut] at hb
    by_cases hx : x = c
    · simp [hx] at hb
    · simp only [hx, if_false] at hb
      rcases List.mem_cons.mp hb with h1 | h1
      · exact h1 ▸ List.mem_cons_self x xs
      · exact List.mem_cons_of_mem _ (ih b h1)

theorem cut_post_subset {s : Str} {c : Nat} : ∀ b ∈ (cut s c).2.1, b ∈ s := by
  induction s with
  | nil => simp [cut]
  | cons x xs ih =>
    intro b hb
    simp only [cut] at hb
    by_cases hx : x = c
    · simp only [hx, if_true] at hb
      exact List.mem_cons_of_mem _ hb
    · simp only [hx, if_false] at hb
      exact List.mem_cons_of_mem _ (ih b hb)

theorem cut_pre_not_mem {s : Str} {c : Nat} : c ∉ (cut s c).1 := by
  induction s with
  | nil => simp [cut]
  | cons x xs ih =>
    simp only [cut]
    by_cases hx : x = c
    · simp [hx]
    · simp only [hx, if_false]
      intro hc
      rcases List.mem_cons.mp hc with h1 | h1
      · exact hx h1.symm
      · exact ih h1

theorem cut_post_length_lt {s : Str} {c : Nat} (h : s ≠ []) :
    (cut s c).2.1.length < s.length := by
  induction s with
  | nil => exact absurd rfl h
  | cons x xs ih =>
    simp only [cut]
    by_cases hx : x = c
    · simp [hx, Nat.lt_succ_self]
    · simp only [hx, if_false, List.length_cons]
      by_cases hxs : xs = []
      · subst hxs; simp [cut]
      · exact Nat.lt_succ_of_lt (ih hxs)

/-! ## net/url escaping (go1.21 net/url/url.go) -/

/-- The `encoding` modes of net/url. -/
inductive Encoding where
  | path
  | pathSegment
  | host
  | zone
  | userPassword
  | queryComponent
  | fragment
deriving DecidableEq, Repr

def isUpperAl (c : Nat) : Bool := 65 ≤ c && c ≤ 90
def isLowerAl (c : Nat) : Bool := 97 ≤ c && c ≤ 122
def isDigitB (c : Nat) : Bool := 48 ≤ c && c ≤ 57
def isAlnum (c : Nat) : Bool := isLowerAl c || isUpperAl c || isDigitB c

/-- `shouldEscape(c, mode)` from net/url. Byte values: `!`=33, `"`=34, `$`=36,
`&`=38, `'`=39, `(`=40, `)`=41, `*`=42, `+`=43, `,`=44, `-`=45, `.`=46,
`/`=47, `:`=58, `;`=59, `<`=60, `=`=61, `>`=62, `?`=63, `@`=64, `[`=91,
`]`=93, `_`=95, `~`=126. -/
def shouldEscape (c : Nat) (mode : Encoding) : Bool :=
  if isAlnum c then false
  else if (mode = .host || mode = .zone) &&
      (c ∈ [33, 36, 38, 39, 40, 41, 42, 43, 44, 59, 61, 58, 91, 93, 60, 62, 34]) then false
  else if c ∈ [45, 95, 46, 126] then false
  else if c ∈ [36, 38, 43, 44, 47, 58, 59, 61, 63, 64] then
    match mode with
    | .path => c = 63
    | .pathSegment => c = 47 || c = 59 || c = 44 || c = 63
    | .userPassword => c = 64 || c = 47 || c = 63 || c = 58
    | .queryComponent => true
    | .fragment => false
    | _ => true
  else if mode = .fragment && c ∈ [33, 40, 41, 42] then false
  else true

/-- `upperhex[n]`: hex digit byte for `n < 16`. -/
def upperhex (n : Nat) : Nat := if n < 10 then 48 + n else 55 + n

def ishex (c : Nat) : Bool :=
  (48 ≤ c && c ≤ 57) || (97 ≤ c && c ≤ 102) || (65 ≤ c && c ≤ 70)

def unhex (c : Nat) : Nat :=
  if 48 ≤ c && c ≤ 57 then c - 48
  else if 97 ≤ c && c ≤ 102 then c - 97 + 10
  else if 65 ≤ c && c ≤ 70 then c - 65 + 10
  else 0

/-- The bytes `escape` emits for a single input byte. -/
def escapeByte (c : Nat) (mode : Encoding) : Str :=
  if c = 32 && mode = .queryComponent then [43]
  else if shouldEscape c mode then [37, upperhex (c / 16), upperhex (c % 16)]
  else [c]

/-- `escape(s, mode)` from net/url (the Go code precounts and returns `s`
unchanged if nothing needs escaping; the per-byte mapping is identical). -/
def escape (s : Str) (mode : Encoding) : Str := s.flatMap (escapeByte · mode)

/-- `unescape(s, mode)` from net/url: `none` is a Go error.  The Go code
validates in a first pass and builds the result in a second; this single
pass returns `none` exactly when the Go code errors, and otherwise the
same bytes. -/
def unescape : Str → Encoding → Option Str
  | [], _ => some []
  | c :: rest, mode =>
    if c = 37 then
      match rest with
      | h1 :: h2 :: rest2 =>
        if ishex h1 && ishex h2 then
          if mode = .host && unhex h1 < 8 && ¬(h1 = 50 ∧ h2 = 53) then none
          else if mode = .zone &&
              (¬(h1 = 50 ∧ h2 = 53) && (unhex h1 * 16 + unhex h2) ≠ 32 &&
                shouldEscape (unhex h1 * 16 + unhex h2) .host) then none
          else (unescape rest2 mode).map (fun t => (unhex h1 * 16 + unhex h2) :: t)
        else none
      | _ => none
    else if c = 43 then
      (unescape rest mode).map
        (fun t => (if mode = .queryComponent then 32 else 43) :: t)
    else
      if (mode = .host || mode = .zone) && c < 128 && shouldEscape c mode then none
      else (unescape rest mode).map (fun t => c :: t)

/-- `validEncoded(s, mode)` from net/url. -/
def validEncodedByte (c : Nat) (mode : Encoding) : Bool :=
  if c ∈ [33, 36, 38, 39, 40, 41, 42, 43, 44, 59, 61, 58, 64] then true
  else if c = 91 || c = 93 then true
  else if c = 37 then true
  else ¬ shouldEscape c mode

def validEncoded (s : Str) (mode : Encoding) : Bool :=
  s.all (validEncodedByte · mode)

/-! ## strings.TrimSpace (with unicode.IsSpace fallback, per Go) -/

/-- `utf8.DecodeRune`: (rune value, size); invalid encodings give
(RuneError = 0xFFFD, 1); the empty input gives (RuneError, 0). -/
def decodeRune : Str → Nat × Nat
  | [] => (65533, 0)
  | b0 :: rest =>
    if b0 < 128 then (b0, 1)
    else if b0 < 194 then (65533, 1)
    else if b0 ≤ 223 then
      match rest with
      | b1 :: _ =>
        if 128 ≤ b1 && b1 ≤ 191 then ((b0 - 192) * 64 + (b1 - 128), 2)
        else (65533, 1)
      | [] => (65533, 1)
    else if b0 ≤ 239 then
      match rest with
      | b1 :: b2 :: _ =>
        let lo := if b0 = 224 then 160 else 128
        let hi := if b0 = 237 then 159 else 191
        if lo ≤ b1 && b1 ≤ hi && 128 ≤ b2 && b2 ≤ 191 then
          ((b0 - 224) * 4096 + (b1 - 128) * 64 + (b2 - 128), 3)
        else (65533, 1)
      | _ => (65533, 1)
    else if b0 ≤ 244 then
      match rest with
      | b1 :: b2 :: b3 :: _ =>
        let lo := if b0 = 240 then 144 else 128
        let hi := if b0 = 244 then 143 else 191
        if lo ≤ b1 && b1 ≤ hi && 128 ≤ b2 && b2 ≤ 191 && 128 ≤ b3 && b3 ≤ 191 then
          ((b0 - 240) * 262144 + (b1 - 128) * 4096 + (b2 - 128) * 64 + (b3 - 128), 4)
        else (65533, 1)
      | _ => (65533, 1)
    else (65533, 1)

/-- `utf8.RuneStart`: not a continuation byte. -/
def runeStart (b : Nat) : Bool := ¬ (128 ≤ b && b < 192)

/-- Helper for `decodeLastRune`: Go scans indices end-2 down to
max(end-4, 0) for a rune-start byte; on the reversed list those are
positions 1, 2, 3.  Returns the distance from the last byte. -/
def dlrStart (r : Str) : Option Nat :=
  match r with
  | _ :: b1 :: t1 =>
    if runeStart b1 then some 1
    else
      match t1 with
      | b2 :: t2 =>
        if runeStart b2 then some 2
        else
          match t2 with
          | b3 :: _ => if runeStart b3 then some 3 else none
          | [] => none
      | [] => none
  | _ => none

/-- `utf8.DecodeLastRune`.  When no rune-start byte occurs among the last
four bytes Go decodes from max(end-5, 0) and the start+size check fails;
Nat subtraction reproduces Go's clamping of the start index to 0. -/
def decodeLastRune (p : Str) : Nat × Nat :=
  match p.getLast? with
  | none => (65533, 0)
  | some last =>
    if last < 128 then (last, 1)
    else
      let cand :=
        match dlrStart p.reverse with
        | some j => (p.reverse.take (j + 1)).reverse
        | none => p.drop (p.length - 5)
      let rs := decodeRune cand
      if rs.2 = cand.length then rs else (65533, 1)

/-- `unicode.IsSpace`: the White_Space property runes. -/
def isSpaceRune (r : Nat) : Bool :=
  r ∈ [9, 10, 11, 12, 13, 32, 133, 160, 5760,
       8192, 8193, 8194, 8195, 8196, 8197, 8198, 8199, 8200, 8201, 8202,
       8232, 8233, 8239, 8287, 12288]

/-- Go's asciiSpace table. -/
def asciiSpace (c : Nat) : Bool := c ∈ [9, 10, 11, 12, 13, 32]

/-- `strings.TrimLeftFunc(s, unicode.IsSpace)`, fuel-based: each step of the
Go loop consumes at least one byte, so fuel = length is enough. -/
def trimLeftSpaceF : Nat → Str → Str
  | 0, s => s
  | fuel + 1, s =>
    match s with
    | [] => []
    | b :: rest =>
      let rn := decodeRune (b :: rest)
      if isSpaceRune rn.1 then trimLeftSpaceF fuel ((b :: rest).drop rn.2)
      else b :: rest

/-- `strings.TrimRightFunc(s, unicode.IsSpace)`, fuel-based. -/
def trimRightSpaceF : Nat → Str → Str
  | 0, s => s
  | fuel + 1, s =>
    if s = [] then []
    else
      let rn := decodeLastRune s
      if isSpaceRune rn.1 then trimRightSpaceF fuel (s.take (s.length - rn.2))
      else s

/-- Second (right-to-left) ASCII fast-path loop of `strings.TrimSpace`. -/
def tsEndF : Nat → Str → Str
  | 0, s => s
  | fuel + 1, s =>
    match s.getLast? with
    | none => []
    | some c =>
      if 128 ≤ c then trimRightSpaceF s.length s
      else if asciiSpace c then tsEndF fuel s.dropLast
      else s

/-- First (left-to-right) ASCII fast-path loop of `strings.TrimSpace`. -/
def tsStartF : Nat → Str → Str
  | 0, s => s
  | fuel + 1, s =>
    match s with
    | [] => []
    | c :: rest =>
      if 128 ≤ c then
        trimRightSpaceF (c :: rest).length (trimLeftSpaceF (c :: rest).length (c :: rest))
      else if asciiSpace c then tsStartF fuel rest
      else tsEndF (c :: rest).length (c :: rest)

/-- `strings.TrimSpace`. -/
def trimSpace (s : Str) : Str := tsStartF s.length s

/-! ## url.Parse (go1.21 net/url/url.go, viaRequest = false throughout) -/

/-- The `url.Userinfo` value: username, password, passwordSet. -/
structure Userinfo where
  username : Str
  password : Str
  passwordSet : Bool
deriving DecidableEq, Repr

/-- The fields of `url.URL` (Opaque is called `opaq` here). -/
structure GoURL where
  scheme : Str := []
  opaq : Str := []
  user : Option Userinfo := none
  host : Str := []
  path : Str := []
  rawPath : Str := []
  omitHost : Bool := false
  forceQuery : Bool := false
  rawQuery : Str := []
  fragment : Str := []
  rawFragment : Str := []
deriving DecidableEq, Repr

def isLetterB (c : Nat) : Bool := isLowerAl c || isUpperAl c

/-- `getScheme` scan.  `none` = the "missing protocol scheme" error;
`some none` = no scheme (caller keeps the whole string);
`some (some (scheme, rest))` = scheme found. -/
def getSchemeAux : Str → Str → Option (Option (Str × Str))
  | [], _ => some none
  | c :: rest, acc =>
    if isLetterB c then getSchemeAux rest (acc ++ [c])
    else if isDigitB c || c = 43 || c = 45 || c = 46 then
      if acc = [] then some none else getSchemeAux rest (acc ++ [c])
    else if c = 58 then
      if acc = [] then none else some (some (acc, rest))
    else some none

/-- `getScheme(rawURL)`: `none` is a Go error. -/
def getScheme (s : Str) : Option (Str × Str) :=
  match getSchemeAux s [] with
  | none => none
  | some none => some ([], s)
  | some (some (sch, rest)) => some (sch, rest)

/-- `strings.ToLower` on ASCII bytes (scheme bytes are always ASCII). -/
def toLowerB (s : Str) : Str :=
  s.map (fun c => if 65 ≤ c && c ≤ 90 then c + 32 else c)

/-- `stringContainsCTLNat`. -/
def containsCTL (s : Str) : Bool := s.any (fun b => b < 32 || b = 127)

/-- `validOptionalPort`. -/
def validOptionalPort (port : Str) : Bool :=
  match port with
  | [] => true
  | 58 :: digits => digits.all isDigitB
  | _ => false

/-- `validUserinfo`. -/
def validUserinfo (s : Str) : Bool :=
  s.all (fun c =>
    isAlnum c ||
    c ∈ [45, 46, 95, 58, 126, 33, 36, 38, 39, 40, 41, 42, 43, 44, 59, 61, 37, 64])

/-- `parseHost(host)`: `none` is a Go error. -/
def parseHost (host : Str) : Option Str :=
  if hasPrefixB host [91] then
    match lastIndexOf host 93 with
    | none => none
    | some i =>
      if ¬ validOptionalPort (host.drop (i + 1)) then none
      else
        match indexOfSub (host.take i) [37, 50, 53] with
        | some zone =>
          match unescape (host.take zone) Encoding.host,
                unescape ((host.take i).drop zone) Encoding.zone,
                unescape (host.drop i) Encoding.host with
          | some h1, some h2, some h3 => some (h1 ++ h2 ++ h3)
          | _, _, _ => none
        | none => unescape host Encoding.host
  else
    match lastIndexOf host 58 with
    | some i =>
      if ¬ validOptionalPort (host.drop i) then none else unescape host Encoding.host
    | none => unescape host Encoding.host

/-- `parseAuthority(authority)`: `none` is a Go error. -/
def parseAuthority (authority : Str) : Option (Option Userinfo × Str) :=
  match lastIndexOf authority 64 with
  | none => (parseHost authority).map (fun h => (none, h))
  | some i =>
    match parseHost (authority.drop (i + 1)) with
    | none => none
    | some host =>
      let userinfo := authority.take i
      if ¬ validUserinfo userinfo then none
      else if ¬ userinfo.contains 58 then
        match unescape userinfo Encoding.userPassword with
        | none => none
        | some u => some (some ⟨u, [], false⟩, host)
      else
        let c := cut userinfo 58
        match unescape c.1 Encoding.userPassword, unescape c.2.1 Encoding.userPassword with
        | some un, some pw => some (some ⟨un, pw, true⟩, host)
        | _, _ => none

/-- `URL.setPath(p)`: returns (Path, RawPath); `none` is a Go error. -/
def setPath (p : Str) : Option (Str × Str) :=
  match unescape p Encoding.path with
  | none => none
  | some path => if escape path Encoding.path = p then some (path, []) else some (path, p)

/-- The part of the inner `parse` after the scheme and query have been
split off (fields `scheme`, `forceQuery`, `rest`, `rawQuery` in the Go
code). -/
def parseInnerBody (scheme : Str) (forceQuery : Bool) (rest rawQuery : Str) :
    Option GoURL :=
  if ¬ hasPrefixB rest [47] && scheme ≠ [] then
    some { scheme := scheme, opaq := rest, forceQuery := forceQuery,
           rawQuery := rawQuery }
  else if ¬ hasPrefixB rest [47] && (cut rest 47).1.contains 58 then
    none
  else if (scheme ≠ [] || ¬ hasPrefixB rest [47, 47, 47]) &&
      hasPrefixB rest [47, 47] then
    match parseAuthority (breakAt (rest.drop 2) 47).1 with
    | none => none
    | some uh =>
      match setPath (breakAt (rest.drop 2) 47).2 with
      | none => none
      | some pr =>
        some { scheme := scheme, user := uh.1, host := uh.2,
               path := pr.1, rawPath := pr.2,
               forceQuery := forceQuery, rawQuery := rawQuery }
  else
    match setPath rest with
    | none => none
    | some pr =>
      some { scheme := scheme,
             omitHost := scheme ≠ [] && hasPrefixB rest [47],
             path := pr.1, rawPath := pr.2,
             forceQuery := forceQuery, rawQuery := rawQuery }

/-- The inner `parse(rawURL, viaRequest=false)`: `none` is a Go error. -/
def parseInner (rawURL : Str) : Option GoURL :=
  if containsCTL rawURL then none
  else if rawURL = [42] then some { path := [42] }
  else
    match getScheme rawURL with
    | none => none
    | some pr =>
      if hasSuffixB pr.2 [63] && ¬ pr.2.dropLast.contains 63 then
        parseInnerBody (toLowerB pr.1) true pr.2.dropLast []
      else
        parseInnerBody (toLowerB pr.1) false (cut pr.2 63).1 (cut pr.2 63).2.1

/-- `url.Parse(rawURL)`: `none` is a Go error. -/
def urlParse (rawURL : Str) : Option GoURL :=
  match parseInner (cut rawURL 35).1 with
  | none => none
  | some url =>
    if (cut rawURL 35).2.1 = [] then some url
    else
      match unescape (cut rawURL 35).2.1 Encoding.fragment with
      | none => none
      | some f =>
        let rf : Str :=
          if escape f Encoding.fragment = (cut rawURL 35).2.1 then []
          else (cut rawURL 35).2.1
        some { url with fragment := f, rawFragment := rf }

/-! ## url.Values: Query / Del / Encode -/

/-- `url.Values` (`map[string][]string`), as an association list with
distinct keys in first-insertion order (Go map iteration order is
irrelevant here: `Encode` sorts the keys). -/
abbrev Values := List (Str × List Str)

def lookupV : Values → Str → Option (List Str)
  | [], _ => none
  | p :: rest, k => if p.1 = k then some p.2 else lookupV rest k

/-- `m[key] = append(m[key], value)` on the association list: if the key is
present its value list is extended, otherwise a new entry is appended. -/
def addPair : Values → Str → Str → Values
  | [], k, v => [(k, [v])]
  | p :: rest, k, v =>
    if p.1 = k then (p.1, p.2 ++ [v]) :: rest else p :: addPair rest k v

/-- One iteration step of Go's `parseQuery` loop on a `&`-separated piece. -/
def parseQueryPiece (m : Values) (piece : Str) : Values :=
  if piece.contains 59 then m
  else if piece = [] then m
  else
    let c := cut piece 61
    match unescape c.1 Encoding.queryComponent,
          unescape c.2.1 Encoding.queryComponent with
    | some k, some v => addPair m k v
    | _, _ => m

/-- `parseQuery` (and hence `URL.Query`, which ignores the error): Go's
loop repeatedly cuts the query at the first `&`, which is exactly a fold
over the `&`-split pieces. -/
def parseQueryStr (query : Str) : Values :=
  (splitB query 38).foldl parseQueryPiece []

/-- `u.Query()`. -/
def goQuery (u : GoURL) : Values := parseQueryStr u.rawQuery

/-- `Values.Del(key)` (Go `delete(v, key)`). -/
def delKey : Values → Str → Values
  | [], _ => []
  | p :: rest, k => if p.1 = k then delKey rest k else p :: delKey rest k

/-- Lexicographic byte order on strings (Go `slices.Sort` on `[]string`). -/
def strLe : Str → Str → Bool
  | [], _ => true
  | _ :: _, [] => false
  | a :: as_, b :: bs => if a < b then true else if b < a then false else strLe as_ bs

def insertSorted (x : Str) : List Str → List Str
  | [] => [x]
  | y :: ys => if strLe x y then x :: y :: ys else y :: insertSorted x ys

/-- Sorting the key list.  `Values` keys are distinct, so any comparison
sort produces the same list as Go's `slices.Sort`. -/
def sortStrs : List Str → List Str
  | [] => []
  | x :: xs => insertSorted x (sortStrs xs)

/-- `QueryEscape`. -/
def queryEscape (s : Str) : Str := escape s Encoding.queryComponent

def joinAmp (pieces : List Str) : Str :=
  match pieces with
  | [] => []
  | p :: ps => p ++ (ps.flatMap (fun x => 38 :: x))

/-- The `k=v` encoded pair strings of `Values.Encode`, in sorted key order. -/
def encodedPairs (q : Values) : List Str :=
  (sortStrs (q.map (·.1))).flatMap
    (fun k => ((lookupV q k).getD []).map (fun v => queryEscape k ++ 61 :: queryEscape v))

/-- `Values.Encode()`: keys sorted, each value emitted as `k=v`, joined
with `&` (Go writes `&` whenever the buffer is nonempty; every pair
contains `=` and is therefore nonempty, so that is a plain join). -/
def encodeValues (q : Values) : Str := joinAmp (encodedPairs q)

/-! ## URL.String -/

/-- `Userinfo.String()`. -/
def userinfoString (ui : Userinfo) : Str :=
  escape ui.username Encoding.userPassword ++
    (if ui.passwordSet then 58 :: escape ui.password Encoding.userPassword else [])

/-- `URL.EscapedPath()`. -/
def escapedPath (u : GoURL) : Str :=
  if u.rawPath ≠ [] && validEncoded u.rawPath Encoding.path &&
      unescape u.rawPath Encoding.path = some u.path then u.rawPath
  else if u.path = [42] then [42]
  else escape u.path Encoding.path

/-- `URL.EscapedFragment()`. -/
def escapedFragment (u : GoURL) : Str :=
  if u.rawFragment ≠ [] && validEncoded u.rawFragment Encoding.fragment &&
      unescape u.rawFragment Encoding.fragment = some u.fragment then u.rawFragment
  else escape u.fragment Encoding.fragment

/-- `URL.String()`. -/
def urlString (u : GoURL) : Str :=
  let buf1 : Str := if u.scheme ≠ [] then u.scheme ++ [58] else []
  let buf2 : Str :=
    if u.opaq ≠ [] then buf1 ++ u.opaq
    else
      let b2 : Str :=
        if u.scheme ≠ [] || u.host ≠ [] || u.user.isSome then
          if u.omitHost && u.host = [] && u.user.isNone then buf1
          else
            let ba : Str :=
              if u.host ≠ [] || u.path ≠ [] || u.user.isSome then buf1 ++ [47, 47]
              else buf1
            let bb : Str :=
              match u.user with
              | some ui => ba ++ userinfoString ui ++ [64]
              | none => ba
            if u.host ≠ [] then bb ++ escape u.host Encoding.host else bb
        else buf1
      let path := escapedPath u
      let b3 : Str :=
        if path ≠ [] && path.head? ≠ some 47 && u.host ≠ [] then b2 ++ [47] else b2
      let b4 : Str :=
        if b3 = [] then (if (cut path 47).1.contains 58 then [46, 47] else [])
        else []
      b3 ++ b4 ++ path
  let buf3 : Str :=
    if u.forceQuery || u.rawQuery ≠ [] then buf2 ++ 63 :: u.rawQuery else buf2
  if u.fragment ≠ [] then buf3 ++ 35 :: escapedFragment u else buf3

/-! ## The sanitizer: removeTagParamsFromURL (src/main.go lines 568-597) -/

def tagKey : Str := [116, 97, 103]
def taggingKey : Str := [116, 97, 103, 103, 105, 110, 103]

/-- `removeTagParamsFromURL(rawURL)` from src/main.go: removes the `tag`
and `tagging` query parameters if present, returning (newURL, changed). -/
def removeTagParamsFromURL (rawURL : Str) : Str × Bool :=
  if rawURL = [] then (rawURL, false)
  else
    match urlParse rawURL with
    | none => (rawURL, false)
    | some u =>
      let q := goQuery u
      let hasTag := (lookupV q tagKey).isSome
      let q1 := if hasTag then delKey q tagKey else q
      let hasTagging := (lookupV q1 taggingKey).isSome
      let q2 := if hasTagging then delKey q1 taggingKey else q1
      if ¬ (hasTag || hasTagging) then (rawURL, false)
      else (urlString { u with rawQuery := encodeValues q2 }, true)

/-- The raw query component that `parse` extracts from a URL string (the
`#`-cut followed by `getScheme` and the `?`-cut); whenever `urlParse`
succeeds its `rawQuery` field equals this (proved below). -/
def rawQueryOf (s : Str) : Str :=
  let u0 := (cut s 35).1
  if u0 = [42] then []
  else
    match getScheme u0 with
    | none => []
    | some pr =>
      let rest0 := pr.2
      if hasSuffixB rest0 [63] && ¬ rest0.dropLast.contains 63 then []
      else (cut rest0 63).2.1

/-- The parsed query parameters of a URL string (per `parse` + `Query()`). -/
def queryOfString (s : Str) : Values := parseQueryStr (rawQueryOf s)

/-! ## normalizeBulkArchiveURL (src/main.go lines 236-260) -/

/-- `normalizeBulkArchiveURL(rawURL)`; the global `bulkS3Prefix` is passed
explicitly. -/
def normalizeBulkArchiveURL (bulkS3 : Str) (rawURL : Str) : Str :=
  if bulkS3 = [] || rawURL = [] then rawURL
  else
    match urlParse rawURL with
    | none => rawURL
    | some u =>
      let parts := splitB (trimSlashes u.path) 47
      match parts.getLast? with
      | none => rawURL
      | some filename =>
        if filename = [] then rawURL
        else trimRightSlash bulkS3 ++ 47 :: filename

/-! ## Byte-level facts -/

/-- All bytes of a Go string are below 256. -/
def BytesOK (s : Str) : Prop := ∀ b ∈ s, b < 256

/-- `s` contains neither `?` (63) nor `#` (35). -/
def NoQH (s : Str) : Prop := 63 ∉ s ∧ 35 ∉ s

theorem NoQH_nil : NoQH [] := ⟨List.not_mem_nil _, List.not_mem_nil _⟩

theorem NoQH_append {a b : Str} (ha : NoQH a) (hb : NoQH b) : NoQH (a ++ b) := by
  constructor
  · intro h; rcases List.mem_append.mp h with h1 | h1
    · exact ha.1 h1
    · exact hb.1 h1
  · intro h; rcases List.mem_append.mp h with h1 | h1
    · exact ha.2 h1
    · exact hb.2 h1

theorem NoQH_cons {c : Nat} {s : Str} (hc : c ≠ 63 ∧ c ≠ 35) (hs : NoQH s) :
    NoQH (c :: s) := by
  constructor
  · intro h; rcases List.mem_cons.mp h with h1 | h1
    · exact hc.1 h1.symm
    · exact hs.1 h1
  · intro h; rcases List.mem_cons.mp h with h1 | h1
    · exact hc.2 h1.symm
    · exact hs.2 h1

theorem NoQH_sub {a b : Str} (h : ∀ x ∈ a, x ∈ b) (hb : NoQH b) : NoQH a :=
  ⟨fun hx => hb.1 (h _ hx), fun hx => hb.2 (h _ hx)⟩

theorem upperhex_ne (n : Nat) : upperhex n ≠ 63 ∧ upperhex n ≠ 35 := by
  unfold upperhex
  by_cases h : n < 10 <;> simp [h] <;> omega

theorem shouldEscape_large {c : Nat} (h : 256 ≤ c) (m : Encoding) :
    shouldEscape c m = true := by
  have h1 : isAlnum c = false := by
    unfold isAlnum isLowerAl isUpperAl isDigitB
    simp only [Bool.or_eq_false_iff]
    refine ⟨⟨?_, ?_⟩, ?_⟩ <;> simp <;> omega
  unfold shouldEscape
  rw [h1]
  have hni : ∀ (l : List Nat), (∀ x ∈ l, x < 256) → (c ∈ l) = False := by
    intro l hl
    simp only [eq_iff_iff, iff_false]
    intro hc; exact absurd (hl c hc) (by omega)
  simp only [hni [33, 36, 38, 39, 40, 41, 42, 43, 44, 59, 61, 58, 91, 93, 60, 62, 34]
      (by intro x hx; fin_cases hx <;> omega),
    hni [45, 95, 46, 126] (by intro x hx; fin_cases hx <;> omega),
    hni [36, 38, 43, 44, 47, 58, 59, 61, 63, 64] (by intro x hx; fin_cases hx <;> omega),
    hni [33, 40, 41, 42] (by intro x hx; fin_cases hx <;> omega)]
  simp

/-- Escaping a single byte never produces `?` or `#` in the path, host,
userPassword and queryComponent modes. -/
theorem NoQH_escapeByte_small :
    ∀ (m : Encoding), m = .path ∨ m = .host ∨ m = .userPassword ∨ m = .queryComponent →
    ∀ b : Fin 256, 63 ∉ escapeByte b.val m ∧ 35 ∉ escapeByte b.val m := by
  intro m hm
  rcases hm with h | h | h | h <;> subst h <;> decide

theorem NoQH_escapeByte (c : Nat) (m : Encoding)
    (hm : m = .path ∨ m = .host ∨ m = .userPassword ∨ m = .queryComponent) :
    NoQH (escapeByte c m) := by
  by_cases hc : c < 256
  · exact NoQH_escapeByte_small m hm ⟨c, hc⟩
  · have h256 : 256 ≤ c := by omega
    have hse := shouldEscape_large h256 m
    have hc32 : c ≠ 32 := by omega
    unfold escapeByte
    rw [if_neg (by simp [hc32]), if_pos hse]
    exact NoQH_cons (by omega)
      (NoQH_cons (upperhex_ne _) (NoQH_cons (upperhex_ne _) NoQH_nil))

theorem NoQH_escape (s : Str) (m : Encoding)
    (hm : m = .path ∨ m = .host ∨ m = .userPassword ∨ m = .queryComponent) :
    NoQH (escape s m) := by
  induction s with
  | nil => exact NoQH_nil
  | cons b rest ih => exact NoQH_append (NoQH_escapeByte b m hm) ih

/-! ## QueryEscape / QueryUnescape roundtrip -/

theorem unhex_upperhex : ∀ n : Fin 16, unhex (upperhex n.val) = n.val := by decide

theorem ishex_upperhex : ∀ n : Fin 16, ishex (upperhex n.val) = true := by decide

theorem shouldEscape_37_q : shouldEscape 37 .queryComponent = true := by decide

theorem shouldEscape_43_q : shouldEscape 43 .queryComponent = true := by decide

theorem shouldEscape_32_q : shouldEscape 32 .queryComponent = true := by decide

/-- One byte of the QueryEscape/QueryUnescape roundtrip. -/
theorem unescape_escapeByte_q (b : Nat) (hb : b < 256) (t : Str) :
    unescape (escapeByte b .queryComponent ++ t) .queryComponent =
      (unescape t .queryComponent).map (fun u => b :: u) := by
  by_cases h32 : b = 32
  · subst h32
    have he : escapeByte 32 .queryComponent = [43] := by decide
    rw [he]
    show unescape (43 :: t) .queryComponent = _
    rw [unescape.eq_def]
    norm_num
  · by_cases hse : shouldEscape b .queryComponent = true
    · have he : escapeByte b .queryComponent =
          [37, upperhex (b / 16), upperhex (b % 16)] := by
        unfold escapeByte
        rw [if_neg (by simp [h32]), if_pos hse]
      rw [he]
      have hd : b / 16 < 16 := by omega
      have hm : b % 16 < 16 := by omega
      have hx1 := ishex_upperhex ⟨b / 16, hd⟩
      have hx2 := ishex_upperhex ⟨b % 16, hm⟩
      have hu1 := unhex_upperhex ⟨b / 16, hd⟩
      have hu2 := unhex_upperhex ⟨b % 16, hm⟩
      simp only at hx1 hx2 hu1 hu2
      show unescape (37 :: upperhex (b / 16) :: upperhex (b % 16) :: t) .queryComponent = _
      rw [unescape.eq_def]
      norm_num [hx1, hx2, hu1, hu2]
      simp
      have hb16 : b / 16 * 16 + b % 16 = b := by omega
      rw [hb16]
    · have h37 : b ≠ 37 := fun h => hse (h ▸ shouldEscape_37_q)
      have h43 : b ≠ 43 := fun h => hse (h ▸ shouldEscape_43_q)
      have he : escapeByte b .queryComponent = [b] := by
        unfold escapeByte
        rw [if_neg (by simp [h32]), if_neg hse]
      rw [he]
      show unescape (b :: t) .queryComponent = _
      rw [unescape.eq_def]
      norm_num [h37, h43]
      simp

/-- `QueryUnescape(QueryEscape(s)) = s` for byte strings. -/
theorem unescape_escape_q (s : Str) (hs : BytesOK s) :
    unescape (escape s .queryComponent) .queryComponent = some s := by
  induction s with
  | nil => rfl
  | cons b rest ih =>
    have hb : b < 256 := hs b (List.mem_cons_self _ _)
    have hrest : BytesOK rest := fun x hx => hs x (List.mem_cons_of_mem _ hx)
    show unescape (escapeByte b .queryComponent ++ escape rest .queryComponent)
        .queryComponent = some (b :: rest)
    rw [unescape_escapeByte_q b hb, ih hrest]
    rfl


theorem unhex_lt (c : Nat) : unhex c < 16 := by
  unfold unhex
  split
  · next h => simp at h; omega
  · split
    · next h => simp at h; omega
    · split
      · next h => simp at h; omega
      · omega

/-- Bytes coming out of `unescape` stay below 256 when the input's are. -/
theorem unescape_bytesOK_aux (n : Nat) :
    ∀ s m t, s.length ≤ n → unescape s m = some t → BytesOK s → BytesOK t := by
  induction n with
  | zero =>
    intro s m t hlen h _
    have hnil : s = [] := List.length_eq_zero.mp (Nat.le_zero.mp hlen)
    subst hnil
    cases h
    exact fun b hb => absurd hb (List.not_mem_nil b)
  | succ n ih =>
    intro s m t hlen h hs
    cases s with
    | nil =>
      cases h
      exact fun b hb => absurd hb (List.not_mem_nil b)
    | cons c rest =>
      rw [unescape.eq_def] at h
      dsimp only at h
      by_cases hc37 : c = 37
      · rw [if_pos hc37] at h
        cases rest with
        | nil => exact absurd h (by simp)
        | cons h1 rest1 =>
          cases rest1 with
          | nil => exact absurd h (by simp)
          | cons h2 rest2 =>
            dsimp only at h
            split at h
            · split at h
              · exact absurd h (by simp)
              · split at h
                · exact absurd h (by simp)
                · rcases Option.map_eq_some'.mp h with ⟨u, hu, hut⟩
                  subst hut
                  have hrest : BytesOK rest2 := fun x hx =>
                    hs x (by simp [List.mem_cons]; tauto)
                  have hlen2 : rest2.length ≤ n := by
                    simp only [List.length_cons] at hlen
                    omega
                  have hu256 := ih rest2 m u hlen2 hu hrest
                  intro b hb
                  rcases List.mem_cons.mp hb with h1' | h1'
                  · subst h1'
                    have hx1 := unhex_lt h1
                    have hx2 := unhex_lt h2
                    omega
                  · exact hu256 b h1'
            · exact absurd h (by simp)
      · rw [if_neg hc37] at h
        by_cases hc43 : c = 43
        · rw [if_pos hc43] at h
          rcases Option.map_eq_some'.mp h with ⟨u, hu, hut⟩
          subst hut
          have hrest : BytesOK rest := fun x hx => hs x (List.mem_cons_of_mem _ hx)
          have hlen2 : rest.length ≤ n := by
            simp only [List.length_cons] at hlen
            omega
          have hu256 := ih rest m u hlen2 hu hrest
          intro b hb
          rcases List.mem_cons.mp hb with h1' | h1'
          · subst h1'
            split <;> omega
          · exact hu256 b h1'
        · rw [if_neg hc43] at h
          split at h
          · exact absurd h (by simp)
          · rcases Option.map_eq_some'.mp h with ⟨u, hu, hut⟩
            subst hut
            have hrest : BytesOK rest := fun x hx => hs x (List.mem_cons_of_mem _ hx)
            have hlen2 : rest.length ≤ n := by
              simp only [List.length_cons] at hlen
              omega
            have hu256 := ih rest m u hlen2 hu hrest
            intro b hb
            rcases List.mem_cons.mp hb with h1' | h1'
            · subst h1'
              exact hs _ (List.mem_cons_self _ _)
            · exact hu256 b h1'

theorem unescape_bytesOK {s : Str} {m : Encoding} {t : Str}
    (h : unescape s m = some t) (hs : BytesOK s) : BytesOK t :=
  unescape_bytesOK_aux s.length s m t (Nat.le_refl _) h hs

/-! ## Values lemmas -/

def WFkeys (q : Values) : Prop := (q.map Prod.fst).Nodup

def WFvals (q : Values) : Prop := ∀ p ∈ q, p.2 ≠ []

def WFbytes (q : Values) : Prop :=
  ∀ p ∈ q, BytesOK p.1 ∧ ∀ v ∈ p.2, BytesOK v

@[simp] theorem lookupV_nil (k : Str) : lookupV [] k = none := rfl

theorem lookupV_eq_none_iff (q : Values) (k : Str) :
    lookupV q k = none ↔ k ∉ q.map Prod.fst := by
  induction q with
  | nil => simp
  | cons p rest ih =>
    simp only [lookupV, List.map_cons, List.mem_cons]
    by_cases hp : p.1 = k
    · simp [hp]
    · simp only [if_neg hp, ih]
      constructor
      · intro h hk
        rcases hk with h1 | h1
        · exact hp h1.symm
        · exact h h1
      · intro h hk
        exact h (Or.inr hk)

theorem lookupV_addPair_same (m : Values) (k v : Str) :
    lookupV (addPair m k v) k = some (((lookupV m k).getD []) ++ [v]) := by
  induction m with
  | nil => simp [addPair, lookupV]
  | cons p rest ih =>
    simp only [addPair, lookupV]
    by_cases hp : p.1 = k
    · simp [hp, lookupV]
    · simp only [if_neg hp, lookupV, if_neg hp]
      exact ih

theorem lookupV_addPair_other (m : Values) (k v k' : Str) (h : k' ≠ k) :
    lookupV (addPair m k v) k' = lookupV m k' := by
  induction m with
  | nil =>
    simp only [addPair, lookupV]
    rw [if_neg (fun hh => h hh.symm)]
  | cons p rest ih =>
    simp only [addPair]
    by_cases hp : p.1 = k
    · simp only [if_pos hp, lookupV]
      rw [if_neg (by rw [hp]; exact fun hh => h hh.symm),
        if_neg (by rw [hp]; exact fun hh => h hh.symm)]
    · simp only [if_neg hp, lookupV]
      by_cases hpk : p.1 = k'
      · rw [if_pos hpk, if_pos hpk]
      · rw [if_neg hpk, if_neg hpk]
        exact ih

theorem lookupV_delKey_same (q : Values) (k : Str) :
    lookupV (delKey q k) k = none := by
  induction q with
  | nil => simp [delKey]
  | cons p rest ih =>
    simp only [delKey]
    by_cases hp : p.1 = k
    · rw [if_pos hp]; exact ih
    · rw [if_neg hp]
      simp only [lookupV, if_neg hp]
      exact ih

theorem lookupV_delKey_other (q : Values) (k k' : Str) (h : k' ≠ k) :
    lookupV (delKey q k) k' = lookupV q k' := by
  induction q with
  | nil => simp [delKey]
  | cons p rest ih =>
    simp only [delKey]
    by_cases hp : p.1 = k
    · rw [if_pos hp]
      simp only [lookupV]
      rw [if_neg (by rw [hp]; exact fun hh => h hh.symm)]
      exact ih
    · rw [if_neg hp]
      simp only [lookupV]
      by_cases hpk : p.1 = k'
      · rw [if_pos hpk, if_pos hpk]
      · rw [if_neg hpk, if_neg hpk]
        exact ih

theorem keys_addPair (m : Values) (k v : Str) :
    ∀ x, x ∈ (addPair m k v).map Prod.fst ↔ x ∈ m.map Prod.fst ∨ x = k := by
  intro x
  induction m with
  | nil => simp [addPair]
  | cons p rest ih =>
    simp only [addPair]
    by_cases hp : p.1 = k
    · rw [if_pos hp]
      simp only [List.map_cons, List.mem_cons]
      constructor
      · intro h; rcases h with h | h
        · exact Or.inl (Or.inl h)
        · exact Or.inl (Or.inr h)
      · intro h
        rcases h with (h | h) | h
        · exact Or.inl h
        · exact Or.inr h
        · exact Or.inl (hp ▸ h)
    · rw [if_neg hp]
      simp only [List.map_cons, List.mem_cons, ih]
      tauto

theorem WFkeys_addPair {m : Values} (k v : Str) (h : WFkeys m) :
    WFkeys (addPair m k v) := by
  induction m with
  | nil => simp [addPair, WFkeys]
  | cons p rest ih =>
    simp only [addPair]
    by_cases hp : p.1 = k
    · rw [if_pos hp]
      simp only [WFkeys, List.map_cons, List.nodup_cons] at h ⊢
      exact h
    · rw [if_neg hp]
      simp only [WFkeys, List.map_cons, List.nodup_cons] at h ⊢
      refine ⟨?_, ih h.2⟩
      intro hc
      rcases (keys_addPair rest k v p.1).mp hc with h1 | h1
      · exact h.1 h1
      · exact hp h1

theorem WFvals_addPair {m : Values} (k v : Str) (h : WFvals m) :
    WFvals (addPair m k v) := by
  induction m with
  | nil =>
    intro p hp
    simp only [addPair, List.mem_singleton] at hp
    subst hp
    simp
  | cons x rest ih =>
    intro p hp
    simp only [addPair] at hp
    by_cases hx : x.1 = k
    · rw [if_pos hx] at hp
      rcases List.mem_cons.mp hp with h1 | h1
      · subst h1; simp
      · exact h p (List.mem_cons_of_mem _ h1)
    · rw [if_neg hx] at hp
      rcases List.mem_cons.mp hp with h1 | h1
      · subst h1; exact h p (List.mem_cons_self _ _)
      · exact ih (fun y hy => h y (List.mem_cons_of_mem _ hy)) p h1

theorem WFbytes_addPair {m : Values} (k v : Str) (h : WFbytes m)
    (hk : BytesOK k) (hv : BytesOK v) : WFbytes (addPair m k v) := by
  induction m with
  | nil =>
    intro p hp
    simp only [addPair, List.mem_singleton] at hp
    subst hp
    refine ⟨hk, ?_⟩
    intro w hw
    simp only [List.mem_singleton] at hw
    subst hw
    exact hv
  | cons x rest ih =>
    intro p hp
    simp only [addPair] at hp
    by_cases hx : x.1 = k
    · rw [if_pos hx] at hp
      rcases List.mem_cons.mp hp with h1 | h1
      · subst h1
        have hxm := h x (List.mem_cons_self _ _)
        refine ⟨hxm.1, ?_⟩
        intro w hw
        rcases List.mem_append.mp hw with h2 | h2
        · exact hxm.2 w h2
        · simp only [List.mem_singleton] at h2
          subst h2
          exact hv
      · exact h p (List.mem_cons_of_mem _ h1)
    · rw [if_neg hx] at hp
      rcases List.mem_cons.mp hp with h1 | h1
      · subst h1; exact h p (List.mem_cons_self _ _)
      · exact ih (fun y hy => h y (List.mem_cons_of_mem _ hy)) p h1

/-- `parseQueryPiece` preserves the three `Values` invariants when the piece
bytes are below 256. -/
theorem WF_parseQueryPiece {m : Values} {piece : Str}
    (hw : WFkeys m ∧ WFvals m ∧ WFbytes m) (hp : BytesOK piece) :
    WFkeys (parseQueryPiece m piece) ∧ WFvals (parseQueryPiece m piece) ∧
      WFbytes (parseQueryPiece m piece) := by
  unfold parseQueryPiece
  split
  · exact hw
  · split
    · exact hw
    · cases hk : unescape (cut piece 61).1 Encoding.queryComponent with
      | none => simp only [hk]; exact hw
      | some k =>
        cases hv : unescape (cut piece 61).2.1 Encoding.queryComponent with
        | none => simp only [hk, hv]; exact hw
        | some v =>
          simp only [hk, hv]
          have hkb : BytesOK k :=
            unescape_bytesOK hk (fun x hx => hp x (cut_pre_subset x hx))
          have hvb : BytesOK v :=
            unescape_bytesOK hv (fun x hx => hp x (cut_post_subset x hx))
          exact ⟨WFkeys_addPair k v hw.1, WFvals_addPair k v hw.2.1,
            WFbytes_addPair k v hw.2.2 hkb hvb⟩

theorem splitB_subset (s : Str) (c : Nat) : ∀ p ∈ splitB s c, ∀ b ∈ p, b ∈ s := by
  induction s with
  | nil =>
    intro p hp
    simp only [splitB, List.mem_singleton] at hp
    subst hp
    simp
  | cons x xs ih =>
    intro p hp b hb
    simp only [splitB] at hp
    by_cases hx : x = c
    · rw [if_pos hx] at hp
      rcases List.mem_cons.mp hp with h1 | h1
      · subst h1; exact absurd hb (List.not_mem_nil b)
      · exact List.mem_cons_of_mem _ (ih p h1 b hb)
    · rw [if_neg hx] at hp
      cases hsp : splitB xs c with
      | nil =>
        rw [hsp] at hp
        simp only [List.mem_singleton] at hp
        subst hp
        simp only [List.mem_singleton] at hb
        exact hb ▸ List.mem_cons_self _ _
      | cons q qs =>
        rw [hsp] at hp
        rcases List.mem_cons.mp hp with h1 | h1
        · subst h1
          rcases List.mem_cons.mp hb with h2 | h2
          · exact h2 ▸ List.mem_cons_self _ _
          · exact List.mem_cons_of_mem _ (ih q (hsp ▸ List.mem_cons_self _ _) b h2)
        · exact List.mem_cons_of_mem _ (ih p (hsp ▸ List.mem_cons_of_mem _ h1) b hb)

theorem WF_foldl_pieces (pieces : List Str) (m0 : Values)
    (hpieces : ∀ p ∈ pieces, BytesOK p)
    (h0 : WFkeys m0 ∧ WFvals m0 ∧ WFbytes m0) :
    WFkeys (pieces.foldl parseQueryPiece m0) ∧
      WFvals (pieces.foldl parseQueryPiece m0) ∧
      WFbytes (pieces.foldl parseQueryPiece m0) := by
  induction pieces generalizing m0 with
  | nil => exact h0
  | cons p ps ih =>
    exact ih _ (fun q hq => hpieces q (List.mem_cons_of_mem _ hq))
      (WF_parseQueryPiece h0 (hpieces p (List.mem_cons_self _ _)))

/-- The invariants of a parsed query. -/
theorem WF_parseQueryStr (r : Str) (hr : BytesOK r) :
    WFkeys (parseQueryStr r) ∧ WFvals (parseQueryStr r) ∧
      WFbytes (parseQueryStr r) := by
  unfold parseQueryStr
  refine WF_foldl_pieces _ _ (fun p hp b hb => hr b (splitB_subset r 38 p hp b hb)) ?_
  refine ⟨by simp [WFkeys], ?_, ?_⟩ <;> intro p hp <;> exact absurd hp (List.not_mem_nil p)

/-- `&`, `;`, `=` never appear in QueryEscape output. -/
theorem noAmpSemiEq_escapeByte_small :
    ∀ b : Fin 256, 38 ∉ escapeByte b.val .queryComponent ∧
      59 ∉ escapeByte b.val .queryComponent ∧
      61 ∉ escapeByte b.val .queryComponent := by decide

theorem upperhex_notin (n : Nat) :
    upperhex n ≠ 38 ∧ upperhex n ≠ 59 ∧ upperhex n ≠ 61 := by
  unfold upperhex
  by_cases h : n < 10
  · rw [if_pos h]; omega
  · rw [if_neg h]; omega

theorem noAmpSemiEq_escapeByte (b : Nat) :
    38 ∉ escapeByte b .queryComponent ∧ 59 ∉ escapeByte b .queryComponent ∧
      61 ∉ escapeByte b .queryComponent := by
  by_cases hb : b < 256
  · exact noAmpSemiEq_escapeByte_small ⟨b, hb⟩
  · have h256 : 256 ≤ b := by omega
    have hse := shouldEscape_large h256 Encoding.queryComponent
    have hne : escapeByte b .queryComponent =
        [37, upperhex (b / 16), upperhex (b % 16)] := by
      unfold escapeByte
      rw [if_neg (by simp; omega), if_pos hse]
    rw [hne]
    have h1 := upperhex_notin (b / 16)
    have h2 := upperhex_notin (b % 16)
    refine ⟨?_, ?_, ?_⟩ <;> simp [List.mem_cons] <;> omega

theorem noAmpSemiEq_queryEscape (s : Str) :
    38 ∉ queryEscape s ∧ 59 ∉ queryEscape s ∧ 61 ∉ queryEscape s := by
  induction s with
  | nil => refine ⟨?_, ?_, ?_⟩ <;> exact List.not_mem_nil _
  | cons b rest ih =>
    have hb := noAmpSemiEq_escapeByte b
    show 38 ∉ escapeByte b .queryComponent ++ queryEscape rest ∧ _ ∧ _
    refine ⟨?_, ?_, ?_⟩ <;> intro h <;> rcases List.mem_append.mp h with h1 | h1
    · exact hb.1 h1
    · exact ih.1 h1
    · exact hb.2.1 h1
    · exact ih.2.1 h1
    · exact hb.2.2 h1
    · exact ih.2.2 h1

theorem splitB_no_sep {p : Str} {c : Nat} (h : c ∉ p) : splitB p c = [p] := by
  induction p with
  | nil => rfl
  | cons x xs ih =>
    have hx : x ≠ c := fun hc => h (hc ▸ List.mem_cons_self _ _)
    have hxs : c ∉ xs := fun hc => h (List.mem_cons_of_mem _ hc)
    simp only [splitB, if_neg hx, ih hxs]

theorem splitB_append_sep {p : Str} {c : Nat} (t : Str) (h : c ∉ p) :
    splitB (p ++ c :: t) c = p :: splitB t c := by
  induction p with
  | nil => simp [splitB]
  | cons x xs ih =>
    have hx : x ≠ c := fun hc => h (hc ▸ List.mem_cons_self _ _)
    have hxs : c ∉ xs := fun hc => h (List.mem_cons_of_mem _ hc)
    have hr := ih hxs
    simp only [List.cons_append, splitB, if_neg hx]
    rw [show xs.append (c :: t) = xs ++ c :: t from rfl, hr]

theorem splitB_joinAmp (L : List Str) (hL : L ≠ []) (h38 : ∀ p ∈ L, 38 ∉ p) :
    splitB (joinAmp L) 38 = L := by
  induction L with
  | nil => exact absurd rfl hL
  | cons p ps ih =>
    cases ps with
    | nil =>
      show splitB (p ++ [].flatMap (fun x => 38 :: x)) 38 = [p]
      simp only [List.flatMap_nil, List.append_nil]
      exact splitB_no_sep (h38 p (List.mem_cons_self _ _))
    | cons q qs =>
      have hj : joinAmp (p :: q :: qs) = p ++ 38 :: joinAmp (q :: qs) := by
        show p ++ (q :: qs).flatMap (fun x => 38 :: x) =
          p ++ 38 :: (q ++ qs.flatMap (fun x => 38 :: x))
        simp [List.flatMap_cons]
      rw [hj, splitB_append_sep _ (h38 p (List.mem_cons_self _ _))]
      rw [ih (by simp) (fun x hx => h38 x (List.mem_cons_of_mem _ hx))]

/-- Processing one encoded `k=v` piece is exactly `addPair`. -/
theorem parseQueryPiece_encodedPair (m : Values) (k v : Str)
    (hk : BytesOK k) (hv : BytesOK v) :
    parseQueryPiece m (queryEscape k ++ 61 :: queryEscape v) = addPair m k v := by
  have hsemi59 : (59 : Nat) ∉ queryEscape k ++ 61 :: queryEscape v := by
    intro h
    rcases List.mem_append.mp h with h1 | h1
    · exact (noAmpSemiEq_queryEscape k).2.1 h1
    · rcases List.mem_cons.mp h1 with h2 | h2
      · exact absurd h2 (by omega)
      · exact (noAmpSemiEq_queryEscape v).2.1 h2
  have hsemi : (queryEscape k ++ 61 :: queryEscape v).contains 59 = false := by
    simpa using hsemi59
  have hne : queryEscape k ++ 61 :: queryEscape v ≠ [] := by simp
  unfold parseQueryPiece
  rw [hsemi]
  simp only [Bool.false_eq_true, if_false, if_neg hne]
  rw [cut_append (fun h => (noAmpSemiEq_queryEscape k).2.2 h)]
  simp only [queryEscape]
  rw [unescape_escape_q k hk, unescape_escape_q v hv]

/-- The (key, value) pairs that `Values.Encode` emits, in order. -/
def pairsOf (q : Values) : List (Str × Str) :=
  (sortStrs (q.map Prod.fst)).flatMap
    (fun k => ((lookupV q k).getD []).map (fun v => (k, v)))

def pairStr (kv : Str × Str) : Str := queryEscape kv.1 ++ 61 :: queryEscape kv.2

theorem encodedPairs_eq (q : Values) :
    encodedPairs q = (pairsOf q).map pairStr := by
  unfold encodedPairs pairsOf
  rw [List.map_flatMap]
  congr 1
  funext k
  rw [List.map_map]
  rfl

def valsOfPairs (ps : List (Str × Str)) (k : Str) : List Str :=
  (ps.filter (fun kv => kv.1 = k)).map Prod.snd

theorem lookupV_foldlAdd (ps : List (Str × Str)) (m : Values) (k : Str) :
    lookupV (ps.foldl (fun m kv => addPair m kv.1 kv.2) m) k =
      (match lookupV m k with
       | some vs => some (vs ++ valsOfPairs ps k)
       | none =>
         if k ∈ ps.map Prod.fst then some (valsOfPairs ps k) else none) := by
  induction ps generalizing m with
  | nil =>
    simp only [List.foldl_nil, valsOfPairs, List.filter_nil, List.map_nil,
      List.append_nil, List.not_mem_nil, if_false]
    cases lookupV m k <;> rfl
  | cons kv ps ih =>
    simp only [List.foldl_cons]
    rw [ih (addPair m kv.1 kv.2)]
    by_cases hk : kv.1 = k
    · rw [hk, lookupV_addPair_same]
      have hfil : valsOfPairs (kv :: ps) k = kv.2 :: valsOfPairs ps k := by
        unfold valsOfPairs
        rw [List.filter_cons_of_pos (by simpa using hk)]
        rfl
      rw [hfil]
      cases hlm : lookupV m k with
      | some vs =>
        simp only [Option.getD_some, List.append_assoc, List.singleton_append]
      | none =>
        simp only [Option.getD_none, List.nil_append, List.singleton_append]
        rw [if_pos (by simp only [List.map_cons, List.mem_cons]; exact Or.inl hk.symm)]
    · rw [lookupV_addPair_other m kv.1 kv.2 k (fun h => hk h.symm)]
      have hfil : valsOfPairs (kv :: ps) k = valsOfPairs ps k := by
        unfold valsOfPairs
        rw [List.filter_cons_of_neg (by simpa using hk)]
      rw [hfil]
      cases hlm : lookupV m k with
      | some vs => rfl
      | none =>
        show (if k ∈ ps.map Prod.fst then some (valsOfPairs ps k) else none) =
          (if k ∈ (kv :: ps).map Prod.fst then some (valsOfPairs ps k) else none)
        by_cases hmm : k ∈ ps.map Prod.fst
        · rw [if_pos hmm,
            if_pos (by simp only [List.map_cons, List.mem_cons]; exact Or.inr hmm)]
        · rw [if_neg hmm, if_neg (by
            simp only [List.map_cons, List.mem_cons]
            rintro (h | h)
            · exact hk h.symm
            · exact hmm h)]

theorem foldl_pieces_eq (ps : List (Str × Str)) (m : Values)
    (h : ∀ kv ∈ ps, BytesOK kv.1 ∧ BytesOK kv.2) :
    (ps.map pairStr).foldl parseQueryPiece m =
      ps.foldl (fun m kv => addPair m kv.1 kv.2) m := by
  induction ps generalizing m with
  | nil => rfl
  | cons kv ps ih =>
    simp only [List.map_cons, List.foldl_cons]
    have hh := h kv (List.mem_cons_self _ _)
    rw [show parseQueryPiece m (pairStr kv) = addPair m kv.1 kv.2 from
      parseQueryPiece_encodedPair m kv.1 kv.2 hh.1 hh.2]
    exact ih _ (fun x hx => h x (List.mem_cons_of_mem _ hx))

theorem insertSorted_perm (x : Str) (l : List Str) :
    (insertSorted x l).Perm (x :: l) := by
  induction l with
  | nil => exact List.Perm.refl _
  | cons y ys ih =>
    unfold insertSorted
    split
    · exact List.Perm.refl _
    · exact ((ih.cons y).trans (List.Perm.swap x y ys))

theorem sortStrs_perm (l : List Str) : (sortStrs l).Perm l := by
  induction l with
  | nil => exact List.Perm.refl _
  | cons x xs ih =>
    exact (insertSorted_perm x (sortStrs xs)).trans (ih.cons x)

theorem lookupV_entry {q : Values} {k : Str} {vs : List Str}
    (h : lookupV q k = some vs) : ∃ p ∈ q, p.1 = k ∧ p.2 = vs := by
  induction q with
  | nil => exact absurd h (by simp)
  | cons p rest ih =>
    simp only [lookupV] at h
    by_cases hp : p.1 = k
    · rw [if_pos hp] at h
      cases h
      exact ⟨p, List.mem_cons_self _ _, hp, rfl⟩
    · rw [if_neg hp] at h
      rcases ih h with ⟨x, hx, hxx⟩
      exact ⟨x, List.mem_cons_of_mem _ hx, hxx⟩

theorem valsOfPairs_not_mem (KS : List Str) (f : Str → List Str) (k : Str)
    (h : k ∉ KS) :
    valsOfPairs (KS.flatMap (fun key => (f key).map (fun v => (key, v)))) k = [] := by
  induction KS with
  | nil => rfl
  | cons key rest ih =>
    have hkey : key ≠ k := fun hh => h (hh ▸ List.mem_cons_self _ _)
    have hrest : k ∉ rest := fun hh => h (List.mem_cons_of_mem _ hh)
    simp only [List.flatMap_cons]
    unfold valsOfPairs
    rw [List.filter_append, List.map_append]
    have h1 : ((f key).map (fun v => (key, v))).filter (fun kv => kv.1 = k) = [] := by
      rw [List.filter_eq_nil_iff]
      intro kv hkv
      rcases List.mem_map.mp hkv with ⟨v, _, hv⟩
      subst hv
      simpa using hkey
    rw [h1]
    simpa [valsOfPairs] using ih hrest

theorem valsOfPairs_flatMap (KS : List Str) (f : Str → List Str) (k : Str)
    (hnd : KS.Nodup) :
    valsOfPairs (KS.flatMap (fun key => (f key).map (fun v => (key, v)))) k =
      if k ∈ KS then f k else [] := by
  induction KS with
  | nil => simp [valsOfPairs]
  | cons key rest ih =>
    simp only [List.flatMap_cons]
    unfold valsOfPairs
    rw [List.filter_append, List.map_append]
    rcases List.nodup_cons.mp hnd with ⟨hknr, hrest⟩
    by_cases hkey : key = k
    · subst hkey
      have h1 : ((f key).map (fun v => (key, v))).filter (fun kv => kv.1 = key) =
          (f key).map (fun v => (key, v)) := by
        rw [List.filter_eq_self]
        intro kv hkv
        rcases List.mem_map.mp hkv with ⟨v, _, hv⟩
        subst hv
        simp
      rw [h1, List.map_map]
      have h2 := valsOfPairs_not_mem rest f key hknr
      unfold valsOfPairs at h2
      rw [h2]
      rw [if_pos (List.mem_cons_self _ _)]
      simp
    · have h1 : ((f key).map (fun v => (key, v))).filter (fun kv => kv.1 = k) = [] := by
        rw [List.filter_eq_nil_iff]
        intro kv hkv
        rcases List.mem_map.mp hkv with ⟨v, _, hv⟩
        subst hv
        simpa using hkey
      rw [h1]
      have := ih hrest
      unfold valsOfPairs at this
      simp only [List.map_nil, List.nil_append]
      rw [this]
      by_cases hmm : k ∈ rest
      · rw [if_pos hmm, if_pos (List.mem_cons_of_mem _ hmm)]
      · rw [if_neg hmm, if_neg (by
          intro hcon
          rcases List.mem_cons.mp hcon with h | h
          · exact hkey h.symm
          · exact hmm h)]

theorem mem_keys_flatMap (KS : List Str) (f : Str → List Str) (k : Str) :
    k ∈ (KS.flatMap (fun key => (f key).map (fun v => (key, v)))).map Prod.fst ↔
      (k ∈ KS ∧ f k ≠ []) := by
  constructor
  · intro h
    rcases List.mem_map.mp h with ⟨kv, hkv, hk⟩
    rcases List.mem_flatMap.mp hkv with ⟨key, hkey, hin⟩
    rcases List.mem_map.mp hin with ⟨v, hv, hvkv⟩
    subst hvkv
    simp only at hk
    subst hk
    exact ⟨hkey, fun hnil => by rw [hnil] at hv; exact absurd hv (List.not_mem_nil v)⟩
  · intro ⟨hks, hne⟩
    cases hf : f k with
    | nil => exact absurd hf hne
    | cons v vs =>
      refine List.mem_map.mpr ⟨(k, v), ?_, rfl⟩
      refine List.mem_flatMap.mpr ⟨k, hks, ?_⟩
      exact List.mem_map.mpr ⟨v, by rw [hf]; exact List.mem_cons_self _ _, rfl⟩

/-- The central roundtrip: parsing an encoded `Values` looks up the same. -/
theorem lookupV_parseQueryStr_encode (q : Values)
    (hk : WFkeys q) (hv : WFvals q) (hb : WFbytes q) (k : Str) :
    lookupV (parseQueryStr (encodeValues q)) k = lookupV q k := by
  have hperm := sortStrs_perm (q.map Prod.fst)
  have hnd : (sortStrs (q.map Prod.fst)).Nodup := hperm.nodup_iff.mpr hk
  have hpb : ∀ kv ∈ pairsOf q, BytesOK kv.1 ∧ BytesOK kv.2 := by
    intro kv hkv
    rcases List.mem_flatMap.mp hkv with ⟨key, hkey, hin⟩
    rcases List.mem_map.mp hin with ⟨v, hvm, hvkv⟩
    subst hvkv
    have hkq : key ∈ q.map Prod.fst := hperm.mem_iff.mp hkey
    cases hlq : lookupV q key with
    | none => rw [lookupV_eq_none_iff] at hlq; exact absurd hkq hlq
    | some vs =>
      rcases lookupV_entry hlq with ⟨p, hp, hp1, hp2⟩
      have hbp := hb p hp
      constructor
      · exact hp1 ▸ hbp.1
      · rw [hlq] at hvm
        simp only [Option.getD_some] at hvm
        exact hbp.2 v (hp2 ▸ hvm)
  by_cases hqnil : q = []
  · subst hqnil
    rfl
  · have hpne : pairsOf q ≠ [] := by
      intro hnil
      rcases List.exists_cons_of_ne_nil hqnil with ⟨p, rest, hq⟩
      have hlk : lookupV q p.1 = some p.2 := by
        rw [hq]; simp [lookupV]
      have hp2 : p.2 ≠ [] := hv p (hq ▸ List.mem_cons_self _ _)
      rcases List.exists_cons_of_ne_nil hp2 with ⟨v, vrest, hpv⟩
      have hmemKS : p.1 ∈ sortStrs (q.map Prod.fst) :=
        hperm.mem_iff.mpr (by rw [hq]; simp)
      have : (p.1, v) ∈ pairsOf q := by
        refine List.mem_flatMap.mpr ⟨p.1, hmemKS, ?_⟩
        refine List.mem_map.mpr ⟨v, ?_, rfl⟩
        rw [hlk]
        simp only [Option.getD_some]
        rw [hpv]
        exact List.mem_cons_self _ _
      rw [hnil] at this
      exact absurd this (List.not_mem_nil _)
    have hLne : encodedPairs q ≠ [] := by
      rw [encodedPairs_eq]
      intro h
      exact hpne (List.map_eq_nil_iff.mp h)
    have hL38 : ∀ p ∈ encodedPairs q, 38 ∉ p := by
      rw [encodedPairs_eq]
      intro p hp
      rcases List.mem_map.mp hp with ⟨kv, _, hkv⟩
      subst hkv
      intro hmem
      rcases List.mem_append.mp hmem with h1 | h1
      · exact (noAmpSemiEq_queryEscape kv.1).1 h1
      · rcases List.mem_cons.mp h1 with h2 | h2
        · exact absurd h2 (by omega)
        · exact (noAmpSemiEq_queryEscape kv.2).1 h2
    unfold parseQueryStr encodeValues
    rw [splitB_joinAmp _ hLne hL38, encodedPairs_eq, foldl_pieces_eq _ _ hpb,
      lookupV_foldlAdd]
    simp only [lookupV_nil]
    unfold pairsOf
    rw [valsOfPairs_flatMap _ _ _ hnd]
    by_cases hmem : k ∈ q.map Prod.fst
    · have hmemKS : k ∈ sortStrs (q.map Prod.fst) := hperm.mem_iff.mpr hmem
      cases hlq : lookupV q k with
      | none => rw [lookupV_eq_none_iff] at hlq; exact absurd hmem hlq
      | some vs =>
        have hvs : vs ≠ [] := by
          rcases lookupV_entry hlq with ⟨p, hp, _, hp2⟩
          exact hp2 ▸ hv p hp
        rw [if_pos ((mem_keys_flatMap _ _ _).mpr ⟨hmemKS, by
          rw [hlq]; simpa using hvs⟩)]
        simp [hlq, hmemKS]
    · have hmemKS : k ∉ sortStrs (q.map Prod.fst) :=
        fun h => hmem (hperm.mem_iff.mp h)
      rw [if_neg (fun h => hmemKS ((mem_keys_flatMap _ _ _).mp h).1)]
      rw [(lookupV_eq_none_iff q k).mpr hmem]

/-! ## getScheme lemmas -/

/-- The bytes `getScheme` scans over: letters, digits, `+`, `-`, `.`. -/
def schemeByte (c : Nat) : Bool := isLetterB c || isDigitB c || c = 43 || c = 45 || c = 46

theorem schemeByte_ranges {b : Nat} (h : schemeByte b = true) :
    (97 ≤ b ∧ b ≤ 122) ∨ (65 ≤ b ∧ b ≤ 90) ∨ (48 ≤ b ∧ b ≤ 57) ∨
      b = 43 ∨ b = 45 ∨ b = 46 := by
  unfold schemeByte isLetterB isLowerAl isUpperAl isDigitB at h
  simp only [Bool.or_eq_true, Bool.and_eq_true, decide_eq_true_eq] at h
  omega

theorem schemeByte_ne {b : Nat} (h : schemeByte b = true) :
    b ≠ 63 ∧ b ≠ 35 ∧ b ≠ 58 ∧ b ≠ 47 := by
  have := schemeByte_ranges h
  omega

theorem getSchemeAux_cons (c : Nat) (rest acc : Str) :
    getSchemeAux (c :: rest) acc =
      (if isLetterB c then getSchemeAux rest (acc ++ [c])
      else if isDigitB c || c = 43 || c = 45 || c = 46 then
        (if acc = [] then some none else getSchemeAux rest (acc ++ [c]))
      else if c = 58 then (if acc = [] then none else some (some (acc, rest)))
      else some none) := rfl

theorem not_isLetterB_of {c : Nat} (h : isLetterB c = false) : ¬ isLetterB c = true := by
  simp [h]

/-- A non-letter scheme byte is in the digit/`+`/`-`/`.` class. -/
theorem schemeByte_not_letter {d : Nat} (hd : schemeByte d = true)
    (hl : isLetterB d = false) :
    (isDigitB d || d = 43 || d = 45 || d = 46) = true := by
  unfold schemeByte at hd
  rw [hl] at hd
  simpa using hd

/-- Scanning a colon-free string yields "no scheme". -/
theorem getSchemeAux_no_colon (s : Str) : ∀ acc, 58 ∉ s →
    getSchemeAux s acc = some none := by
  induction s with
  | nil => intro acc _; rfl
  | cons c rest ih =>
    intro acc h
    have hc : c ≠ 58 := fun hh => h (hh ▸ List.mem_cons_self _ _)
    have hr : 58 ∉ rest := fun hh => h (List.mem_cons_of_mem _ hh)
    rw [getSchemeAux_cons]
    by_cases h1 : isLetterB c = true
    · rw [if_pos h1]; exact ih _ hr
    · rw [if_neg h1]
      by_cases h2 : (isDigitB c || c = 43 || c = 45 || c = 46) = true
      · rw [if_pos h2]
        by_cases h3 : acc = []
        · rw [if_pos h3]
        · rw [if_neg h3]; exact ih _ hr
      · rw [if_neg h2, if_neg hc]

/-- Scanning stops with "no scheme" at the first byte that is neither a
scheme byte nor a colon, whatever scheme bytes came before. -/
theorem getSchemeAux_stopper (pre : Str) : ∀ (acc : Str) (c : Nat) (post : Str),
    (∀ b ∈ pre, schemeByte b = true) → schemeByte c = false → c ≠ 58 →
    getSchemeAux (pre ++ c :: post) acc = some none := by
  induction pre with
  | nil =>
    intro acc c post _ hc h58
    unfold schemeByte at hc
    simp only [Bool.or_eq_false_iff, decide_eq_false_iff_not] at hc
    rw [List.nil_append, getSchemeAux_cons]
    rw [if_neg (by simp [hc.1.1.1.1]),
      if_neg (by
        simp only [Bool.or_eq_true, decide_eq_true_eq]
        push_neg
        exact ⟨⟨⟨by simp [hc.1.1.1.2], hc.1.1.2⟩, hc.1.2⟩, hc.2⟩),
      if_neg h58]
  | cons d pre' ih =>
    intro acc c post hpre hc h58
    have hd : schemeByte d = true := hpre d (List.mem_cons_self _ _)
    have hpre' : ∀ b ∈ pre', schemeByte b = true :=
      fun b hb => hpre b (List.mem_cons_of_mem _ hb)
    rw [List.cons_append, getSchemeAux_cons]
    by_cases hl : isLetterB d = true
    · rw [if_pos hl]
      exact ih _ c post hpre' hc h58
    · rw [if_neg hl,
        if_pos (schemeByte_not_letter hd (Bool.eq_false_iff.mpr hl))]
      by_cases h3 : acc = []
      · rw [if_pos h3]
      · rw [if_neg h3]
        exact ih _ c post hpre' hc h58

/-- Scanning a full scheme ending in `:`. -/
theorem getSchemeAux_scheme (sch : Str) : ∀ (acc : Str) (R : Str),
    (∀ b ∈ sch, schemeByte b = true) →
    (acc = [] → ∃ c t, sch = c :: t ∧ isLetterB c = true) →
    acc ++ sch ≠ [] →
    getSchemeAux (sch ++ 58 :: R) acc = some (some (acc ++ sch, R)) := by
  induction sch with
  | nil =>
    intro acc R _ _ hne
    simp only [List.append_nil] at hne ⊢
    rw [List.nil_append, getSchemeAux_cons]
    rw [if_neg (by unfold isLetterB isLowerAl isUpperAl; simp),
      if_neg (by unfold isDigitB; simp), if_pos rfl, if_neg hne]
  | cons d sch' ih =>
    intro acc R hbytes hhead hne
    have hd : schemeByte d = true := hbytes d (List.mem_cons_self _ _)
    have hsch' : ∀ b ∈ sch', schemeByte b = true :=
      fun b hb => hbytes b (List.mem_cons_of_mem _ hb)
    have happ : acc ++ d :: sch' = (acc ++ [d]) ++ sch' := by simp
    rw [List.cons_append, getSchemeAux_cons]
    by_cases hl : isLetterB d = true
    · rw [if_pos hl, happ]
      exact ih (acc ++ [d]) R hsch' (by simp) (by simp)
    · have haccne : acc ≠ [] := by
        intro hacc
        rcases hhead hacc with ⟨c, t, hct, hcl⟩
        cases hct
        exact hl hcl
      rw [if_neg hl,
        if_pos (schemeByte_not_letter hd (Bool.eq_false_iff.mpr hl)),
        if_neg haccne, happ]
      exact ih (acc ++ [d]) R hsch' (by simp [haccne]) (by simp)

theorem getSchemeAux_rest_subset (s : Str) : ∀ (acc sch rest : Str),
    getSchemeAux s acc = some (some (sch, rest)) → ∀ b ∈ rest, b ∈ s := by
  induction s with
  | nil => intro acc sch rest h; exact absurd h (by simp [getSchemeAux])
  | cons c s' ih =>
    intro acc sch rest h b hb
    rw [getSchemeAux_cons] at h
    split at h
    · exact List.mem_cons_of_mem _ (ih _ _ _ h b hb)
    · split at h
      · split at h
        · exact absurd h (by simp)
        · exact List.mem_cons_of_mem _ (ih _ _ _ h b hb)
      · split at h
        · split at h
          · exact absurd h (by simp)
          · cases h
            exact List.mem_cons_of_mem _ hb
        · exact absurd h (by simp)

theorem getSchemeAux_scheme_bytes (s : Str) : ∀ (acc sch rest : Str),
    getSchemeAux s acc = some (some (sch, rest)) →
    (∀ b ∈ acc, schemeByte b = true) → ∀ b ∈ sch, schemeByte b = true := by
  induction s with
  | nil => intro acc sch rest h; exact absurd h (by simp [getSchemeAux])
  | cons c s' ih =>
    intro acc sch rest h hacc
    rw [getSchemeAux_cons] at h
    split at h
    · refine ih _ _ _ h ?_
      intro b hb
      rcases List.mem_append.mp hb with h1 | h1
      · exact hacc b h1
      · simp only [List.mem_singleton] at h1
        subst h1
        unfold schemeByte
        rename_i hlet
        simp [hlet]
    · split at h
      · split at h
        · exact absurd h (by simp)
        · refine ih _ _ _ h ?_
          intro b hb
          rcases List.mem_append.mp hb with h1 | h1
          · exact hacc b h1
          · simp only [List.mem_singleton] at h1
            subst h1
            unfold schemeByte
            have hdig : (isDigitB b || decide (b = 43) || decide (b = 45) ||
                decide (b = 46)) = true := by assumption
            simp only [Bool.or_eq_true] at hdig ⊢
            tauto
      · split at h
        · split at h
          · exact absurd h (by simp)
          · cases h
            exact hacc
        · exact absurd h (by simp)

theorem getSchemeAux_head_letter (s : Str) : ∀ (acc sch rest : Str),
    getSchemeAux s acc = some (some (sch, rest)) →
    (acc = [] ∨ ∃ c t, acc = c :: t ∧ isLetterB c = true) →
    ∃ c t, sch = c :: t ∧ isLetterB c = true := by
  induction s with
  | nil => intro acc sch rest h; exact absurd h (by simp [getSchemeAux])
  | cons c s' ih =>
    intro acc sch rest h hacc
    rw [getSchemeAux_cons] at h
    split at h
    · refine ih _ _ _ h ?_
      rcases hacc with h1 | ⟨d, t, hdt, hdl⟩
      · subst h1
        exact Or.inr ⟨c, [], rfl, by assumption⟩
      · exact Or.inr ⟨d, t ++ [c], by rw [hdt]; rfl, hdl⟩
    · split at h
      · split at h
        · exact absurd h (by simp)
        · refine ih _ _ _ h ?_
          rcases hacc with h1 | ⟨d, t, hdt, hdl⟩
          · rename_i hne
            exact absurd h1 hne
          · exact Or.inr ⟨d, t ++ [c], by rw [hdt]; rfl, hdl⟩
      · split at h
        · split at h
          · exact absurd h (by simp)
          · cases h
            rcases hacc with h1 | h1
            · rename_i hne
              exact absurd h1 hne
            · exact h1
        · exact absurd h (by simp)

/-! ## Invariants of a parsed URL -/

theorem breakAt_post_subset (s : Str) (c : Nat) : ∀ b ∈ (breakAt s c).2, b ∈ s := by
  induction s with
  | nil => simp [breakAt]
  | cons x xs ih =>
    intro b hb
    simp only [breakAt] at hb
    by_cases hx : x = c
    · rw [if_pos hx] at hb
      exact hb
    · rw [if_neg hx] at hb
      exact List.mem_cons_of_mem _ (ih b hb)

theorem setPath_rawPath {p : Str} {pr : Str × Str} (h : setPath p = some pr) :
    pr.2 = [] ∨ pr.2 = p := by
  unfold setPath at h
  cases hu : unescape p Encoding.path with
  | none => rw [hu] at h; exact absurd h (by simp)
  | some path =>
    rw [hu] at h
    simp only at h
    split at h
    · rw [Option.some_inj] at h
      subst h
      exact Or.inl rfl
    · rw [Option.some_inj] at h
      subst h
      exact Or.inr rfl

theorem toLowerB_schemeByte {s : Str} (h : ∀ b ∈ s, schemeByte b = true) :
    ∀ b ∈ toLowerB s, schemeByte b = true := by
  intro b hb
  rcases List.mem_map.mp hb with ⟨a, ha, hab⟩
  have hsa := schemeByte_ranges (h a ha)
  subst hab
  unfold schemeByte isLetterB isLowerAl isUpperAl isDigitB
  simp only [Bool.or_eq_true, Bool.and_eq_true, decide_eq_true_eq]
  split
  · rename_i hr
    have hr2 : 65 ≤ a ∧ a ≤ 90 := by simpa using hr
    omega
  · rename_i hr
    have hr2 : ¬ (65 ≤ a ∧ a ≤ 90) := by simpa using hr
    omega

theorem toLowerB_head {s : Str} (h : ∃ c t, s = c :: t ∧ isLetterB c = true) :
    ∃ c t, toLowerB s = c :: t ∧ isLetterB c = true := by
  rcases h with ⟨c, t, hs, hc⟩
  subst hs
  refine ⟨if 65 ≤ c && c ≤ 90 then c + 32 else c, toLowerB t, rfl, ?_⟩
  unfold isLetterB isLowerAl isUpperAl at hc ⊢
  simp only [Bool.or_eq_true, Bool.and_eq_true, decide_eq_true_eq] at hc ⊢
  split
  · rename_i hr
    have hr2 : 65 ≤ c ∧ c ≤ 90 := by simpa using hr
    omega
  · rename_i hr
    have hr2 : ¬ (65 ≤ c ∧ c ≤ 90) := by simpa using hr
    omega

theorem toLowerB_eq_nil_iff (s : Str) : toLowerB s = [] ↔ s = [] := by
  unfold toLowerB
  simp

/-- What `parse` extracts as RawQuery from the pre-fragment part. -/
def rawQueryOfInner (u0 : Str) : Str :=
  if u0 = [42] then []
  else
    match getScheme u0 with
    | none => []
    | some pr =>
      if hasSuffixB pr.2 [63] && ¬ pr.2.dropLast.contains 63 then []
      else (cut pr.2 63).2.1

/-- Structural invariants guaranteed by a successful `parse`, used to
re-read the query component out of `URL.String()` output. -/
structure ParsedWF (u : GoURL) : Prop where
  scheme_bytes : ∀ b ∈ u.scheme, schemeByte b = true
  scheme_head : u.scheme = [] ∨ ∃ c t, u.scheme = c :: t ∧ isLetterB c = true
  opaq_noqh : NoQH u.opaq
  opaq_scheme : u.opaq ≠ [] → u.scheme ≠ []
  rawPath_noqh : NoQH u.rawPath
  forceQuery_rawQuery : u.forceQuery = true → u.rawQuery = []

theorem parseInnerBody_WF {scheme : Str} {forceQuery : Bool}
    {rest rawQuery : Str} {u : GoURL}
    (h : parseInnerBody scheme forceQuery rest rawQuery = some u)
    (hsb : ∀ b ∈ scheme, schemeByte b = true)
    (hsh : scheme = [] ∨ ∃ c t, scheme = c :: t ∧ isLetterB c = true)
    (hrest : NoQH rest)
    (hfq : forceQuery = true → rawQuery = []) :
    ParsedWF u ∧ u.rawQuery = rawQuery := by
  unfold parseInnerBody at h
  split at h
  · rename_i hcond
    simp only [Bool.and_eq_true, decide_eq_true_eq] at hcond
    rw [Option.some_inj] at h
    subst h
    exact ⟨⟨hsb, hsh, hrest, fun _ => hcond.2, NoQH_nil, hfq⟩, rfl⟩
  · split at h
    · exact absurd h (by simp)
    · split at h
      · cases ha : parseAuthority (breakAt (rest.drop 2) 47).1 with
        | none => rw [ha] at h; exact absurd h (by simp)
        | some uh =>
          rw [ha] at h
          simp only at h
          cases hsp : setPath (breakAt (rest.drop 2) 47).2 with
          | none => rw [hsp] at h; exact absurd h (by simp)
          | some pr =>
            rw [hsp] at h
            simp only [Option.some_inj] at h
            subst h
            have hrp : NoQH pr.2 := by
              rcases setPath_rawPath hsp with h1 | h1
              · rw [h1]; exact NoQH_nil
              · rw [h1]
                refine NoQH_sub ?_ hrest
                intro x hx
                exact List.drop_subset 2 rest
                  (breakAt_post_subset (rest.drop 2) 47 x hx)
            exact ⟨⟨hsb, hsh, NoQH_nil, by simp, hrp, hfq⟩, rfl⟩
      · cases hsp : setPath rest with
        | none => rw [hsp] at h; exact absurd h (by simp)
        | some pr =>
          rw [hsp] at h
          simp only [Option.some_inj] at h
          subst h
          have hrp : NoQH pr.2 := by
            rcases setPath_rawPath hsp with h1 | h1
            · rw [h1]; exact NoQH_nil
            · rw [h1]; exact hrest
          exact ⟨⟨hsb, hsh, NoQH_nil, by simp, hrp, hfq⟩, rfl⟩

theorem parseInner_WF {s : Str} {u : GoURL} (h : parseInner s = some u)
    (h35 : 35 ∉ s) : ParsedWF u ∧ u.rawQuery = rawQueryOfInner s := by
  unfold parseInner at h
  split at h
  · exact absurd h (by simp)
  · split at h
    · rename_i hnctl hstar
      rw [Option.some_inj] at h
      subst h
      refine ⟨⟨by simp, Or.inl rfl, NoQH_nil, by simp, NoQH_nil, by simp⟩, ?_⟩
      rw [rawQueryOfInner, if_pos hstar]
    · rename_i hnctl hnstar
      cases hgs : getScheme s with
      | none => rw [hgs] at h; exact absurd h (by simp)
      | some pr =>
        rw [hgs] at h
        simp only at h
        obtain ⟨schemeRaw, rest0⟩ := pr
        have hrest0 : ∀ b ∈ rest0, b ∈ s := by
          unfold getScheme at hgs
          cases hga : getSchemeAux s [] with
          | none => rw [hga] at hgs; exact absurd hgs (by simp)
          | some o =>
            cases o with
            | none =>
              rw [hga] at hgs
              simp only [Option.some_inj] at hgs
              cases hgs
              exact fun b hb => hb
            | some pr2 =>
              rw [hga] at hgs
              simp only [Option.some_inj] at hgs
              cases hgs
              exact getSchemeAux_rest_subset s [] _ _ hga
        have hscheme_bytes : ∀ b ∈ toLowerB schemeRaw, schemeByte b = true := by
          refine toLowerB_schemeByte ?_
          unfold getScheme at hgs
          cases hga : getSchemeAux s [] with
          | none => rw [hga] at hgs; exact absurd hgs (by simp)
          | some o =>
            cases o with
            | none =>
              rw [hga] at hgs
              simp only [Option.some_inj] at hgs
              cases hgs
              simp
            | some pr2 =>
              rw [hga] at hgs
              simp only [Option.some_inj] at hgs
              cases hgs
              exact getSchemeAux_scheme_bytes s [] _ _ hga (by simp)
        have hscheme_head : toLowerB schemeRaw = [] ∨
            ∃ c t, toLowerB schemeRaw = c :: t ∧ isLetterB c = true := by
          unfold getScheme at hgs
          cases hga : getSchemeAux s [] with
          | none => rw [hga] at hgs; exact absurd hgs (by simp)
          | some o =>
            cases o with
            | none =>
              rw [hga] at hgs
              simp only [Option.some_inj] at hgs
              cases hgs
              exact Or.inl rfl
            | some pr2 =>
              rw [hga] at hgs
              simp only [Option.some_inj] at hgs
              cases hgs
              exact Or.inr (toLowerB_head
                (getSchemeAux_head_letter s [] _ _ hga (Or.inl rfl)))
        have hrq : rawQueryOfInner s =
            (if (hasSuffixB rest0 [63] && ¬ rest0.dropLast.contains 63) = true
             then [] else (cut rest0 63).2.1) := by
          rw [rawQueryOfInner, if_neg hnstar, hgs]
        split at h
        · rename_i hcond
          have hr : NoQH rest0.dropLast := by
            constructor
            · simp only [Bool.and_eq_true, decide_eq_true_eq] at hcond
              intro hmem
              exact hcond.2 (by simpa using hmem)
            · intro hmem
              exact h35 (hrest0 35 ((List.dropLast_sublist rest0).subset hmem))
          have hres := parseInnerBody_WF h hscheme_bytes hscheme_head hr
            (fun _ => rfl)
          refine ⟨hres.1, ?_⟩
          rw [hres.2, hrq, if_pos hcond]
        · rename_i hcond
          have hr : NoQH (cut rest0 63).1 := by
            constructor
            · exact cut_pre_not_mem
            · intro hmem
              exact h35 (hrest0 35 (cut_pre_subset 35 hmem))
          have hres := parseInnerBody_WF h hscheme_bytes hscheme_head hr
            (by simp)
          refine ⟨hres.1, ?_⟩
          rw [hres.2, hrq, if_neg hcond]

/-- `urlParse` gives the `ParsedWF` invariants, and its RawQuery field is
exactly the string-level query extraction `rawQueryOf`. -/
theorem urlParse_WF {s : Str} {u : GoURL} (h : urlParse s = some u) :
    ParsedWF u ∧ u.rawQuery = rawQueryOf s := by
  unfold urlParse at h
  cases hpi : parseInner (cut s 35).1 with
  | none => rw [hpi] at h; exact absurd h (by simp)
  | some url =>
    rw [hpi] at h
    simp only at h
    have hw := parseInner_WF hpi cut_pre_not_mem
    have hrq : rawQueryOf s = rawQueryOfInner (cut s 35).1 := rfl
    split at h
    · rw [Option.some_inj] at h
      subst h
      exact ⟨hw.1, hrq ▸ hw.2⟩
    · cases hu2 : unescape (cut s 35).2.1 Encoding.fragment with
      | none => rw [hu2] at h; exact absurd h (by simp)
      | some f =>
        rw [hu2] at h
        simp only [Option.some_inj] at h
        subst h
        have hw1 := hw.1
        exact ⟨⟨hw1.scheme_bytes, hw1.scheme_head, hw1.opaq_noqh,
          hw1.opaq_scheme, hw1.rawPath_noqh, hw1.forceQuery_rawQuery⟩,
          hrq ▸ hw.2⟩

/-! ## The components of URL.String contain no `?` / `#` before the query -/

theorem NoQH_userinfoString (ui : Userinfo) : NoQH (userinfoString ui) := by
  unfold userinfoString
  refine NoQH_append (NoQH_escape _ _ (by simp)) ?_
  split
  · exact NoQH_cons (by omega) (NoQH_escape _ _ (by simp))
  · exact NoQH_nil

theorem NoQH_escapedPath (u : GoURL) (h : NoQH u.rawPath) :
    NoQH (escapedPath u) := by
  unfold escapedPath
  split
  · exact h
  · split
    · exact NoQH_cons (by omega) NoQH_nil
    · exact NoQH_escape _ _ (by simp)

theorem validEncodedByte_35_frag : validEncodedByte 35 .fragment = false := by decide

theorem NoH_escapeByte_frag_small :
    ∀ b : Fin 256, 35 ∉ escapeByte b.val .fragment := by decide

theorem NoH_escapeByte_frag (b : Nat) : 35 ∉ escapeByte b .fragment := by
  by_cases hb : b < 256
  · exact NoH_escapeByte_frag_small ⟨b, hb⟩
  · have h256 : 256 ≤ b := by omega
    have hse := shouldEscape_large h256 Encoding.fragment
    have hne : escapeByte b .fragment =
        [37, upperhex (b / 16), upperhex (b % 16)] := by
      unfold escapeByte
      rw [if_neg (by simp), if_pos hse]
    rw [hne]
    have h1 := upperhex_ne (b / 16)
    have h2 := upperhex_ne (b % 16)
    intro hmem
    rcases List.mem_cons.mp hmem with h | h
    · omega
    rcases List.mem_cons.mp h with h | h
    · exact h1.2 h.symm
    rcases List.mem_cons.mp h with h | h
    · exact h2.2 h.symm
    · exact absurd h (List.not_mem_nil _)

theorem NoH_escapedFragment (u : GoURL) : 35 ∉ escapedFragment u := by
  unfold escapedFragment
  split
  · rename_i hcond
    simp only [Bool.and_eq_true, decide_eq_true_eq] at hcond
    intro hmem
    have hall := hcond.1.2
    unfold validEncoded at hall
    have := List.all_eq_true.mp hall 35 hmem
    rw [validEncodedByte_35_frag] at this
    exact absurd this (by simp)
  · intro hmem
    unfold escape at hmem
    rcases List.mem_flatMap.mp hmem with ⟨b, _, hb⟩
    exact NoH_escapeByte_frag b hb

theorem NoQH_joinAmp {L : List Str} (h : ∀ p ∈ L, NoQH p) : NoQH (joinAmp L) := by
  cases L with
  | nil => exact NoQH_nil
  | cons p ps =>
    show NoQH (p ++ ps.flatMap (fun x => 38 :: x))
    refine NoQH_append (h p (List.mem_cons_self _ _)) ?_
    constructor <;> intro hmem <;>
      rcases List.mem_flatMap.mp hmem with ⟨x, hx, hxm⟩ <;>
      rcases List.mem_cons.mp hxm with h1 | h1
    · exact absurd h1 (by omega)
    · exact (h x (List.mem_cons_of_mem _ hx)).1 h1
    · exact absurd h1 (by omega)
    · exact (h x (List.mem_cons_of_mem _ hx)).2 h1

theorem NoQH_encodeValues (q : Values) : NoQH (encodeValues q) := by
  unfold encodeValues
  refine NoQH_joinAmp ?_
  rw [encodedPairs_eq]
  intro p hp
  rcases List.mem_map.mp hp with ⟨kv, _, hkv⟩
  subst hkv
  unfold pairStr queryEscape
  exact NoQH_append (NoQH_escape _ _ (by simp))
    (NoQH_cons (by omega) (NoQH_escape _ _ (by simp)))

theorem NoQH_schemeColon {scheme : Str}
    (h : ∀ b ∈ scheme, schemeByte b = true) : NoQH (scheme ++ [58]) := by
  constructor <;> intro hmem <;> rcases List.mem_append.mp hmem with h1 | h1
  · exact (schemeByte_ne (h _ h1)).1 rfl
  · exact absurd (List.mem_singleton.mp h1) (by omega)
  · exact (schemeByte_ne (h _ h1)).2.1 rfl
  · exact absurd (List.mem_singleton.mp h1) (by omega)

theorem NoQH_escapeHost (host : Str) : NoQH (escape host .host) :=
  NoQH_escape _ _ (by simp)

theorem getLast?_cons_of_ne_nil {c : Nat} {r : Str} (h : r ≠ []) :
    (c :: r).getLast? = r.getLast? := by
  cases r with
  | nil => exact absurd rfl h
  | cons x t => exact List.getLast?_cons_cons

theorem hasSuffix63_false {s : Str} (h : s.getLast? ≠ some 63) :
    hasSuffixB s [63] = false := by
  rw [Bool.eq_false_iff]
  intro hc
  have hsuf : [63] <:+ s := by
    have : List.isSuffixOf [63] s = true := hc
    rwa [List.isSuffixOf_iff_suffix] at this
  rcases hsuf with ⟨t, ht⟩
  subst ht
  exact h (List.getLast?_concat t)

/-- The `?`-split of `parse` applied to `body ++ (query part)` recovers the
query exactly. -/
theorem querySplit (B r' : Str) (hB : NoQH B) (hr : 63 ∉ r') :
    (if (hasSuffixB (B ++ (if r' = [] then ([] : Str) else 63 :: r')) [63] &&
        ¬ (B ++ (if r' = [] then ([] : Str) else 63 :: r')).dropLast.contains 63) = true
     then []
     else (cut (B ++ (if r' = [] then ([] : Str) else 63 :: r')) 63).2.1) = r' := by
  by_cases hre : r' = []
  · subst hre
    have hBeq : (B ++ (if ([] : Str) = [] then ([] : Str) else 63 :: [])) = B := by
      simp
    rw [hBeq]
    have hlast : B.getLast? ≠ some 63 := by
      intro hc
      exact hB.1 (List.mem_of_mem_getLast? hc)
    rw [hasSuffix63_false hlast]
    simp only [Bool.false_and, Bool.false_eq_true, if_false]
    rw [cut_not_found hB.1]
  · rw [if_neg hre]
    rcases List.exists_cons_of_ne_nil hre with ⟨x, t, hxt⟩
    have hlast : (B ++ 63 :: r').getLast? ≠ some 63 := by
      rw [List.getLast?_append]
      rw [getLast?_cons_of_ne_nil hre]
      cases hgl : r'.getLast? with
      | none => exact absurd (List.getLast?_eq_none_iff.mp hgl) hre
      | some y =>
        have hy : y ∈ r' := List.mem_of_mem_getLast? hgl
        simp only [Option.or_some, Option.some_inj]
        intro hc
        have hy63 : y = 63 := Option.some_inj.mp hc
        exact hr (hy63 ▸ hy)
    rw [hasSuffix63_false hlast]
    simp only [Bool.false_and, Bool.false_eq_true, if_false]
    rw [cut_append hB.1]

theorem schemeByte_47 : schemeByte 47 = false := by decide

theorem schemeByte_63 : schemeByte 63 = false := by decide

theorem schemeByte_58 : schemeByte 58 = false := by decide

theorem not_58_of_all_schemeByte {s : Str} (h : ∀ b ∈ s, schemeByte b = true) :
    58 ∉ s := fun hc => by
  have := h 58 hc
  rw [schemeByte_58] at this
  exact absurd this (by simp)

theorem getSchemeAux_dot (rest : Str) : getSchemeAux (46 :: rest) [] = some none := by
  rw [getSchemeAux_cons]
  norm_num [isLetterB, isLowerAl, isUpperAl]

theorem dropWhile_head_false {p : Nat → Bool} {l : Str} {c : Nat} {t : Str}
    (h : l.dropWhile p = c :: t) : p c = false := by
  induction l with
  | nil => exact absurd h (by simp)
  | cons x xs ih =>
    rw [List.dropWhile_cons] at h
    split at h
    · exact ih h
    · cases h
      rename_i hx
      exact Bool.eq_false_iff.mpr hx

theorem mem_cut_pre_58 {a : Str} (b : Str) (h : 47 ∉ a) :
    58 ∈ (cut (a ++ 58 :: b) 47).1 := by
  induction a with
  | nil =>
    show 58 ∈ (cut (58 :: b) 47).1
    simp only [cut]
    rw [if_neg (by omega)]
    exact List.mem_cons_self _ _
  | cons x xs ih =>
    have hx : x ≠ 47 := fun hc => h (hc ▸ List.mem_cons_self _ _)
    have hxs : 47 ∉ xs := fun hc => h (List.mem_cons_of_mem _ hc)
    show 58 ∈ (cut (x :: (xs ++ 58 :: b)) 47).1
    simp only [cut]
    rw [if_neg hx]
    exact List.mem_cons_of_mem _ (ih hxs)

/-- The conditions under which `getScheme` finds no scheme in the body of a
scheme-less URL string followed by the query part. -/
theorem getSchemeAux_none_pathCase (path tail : Str)
    (hseg : (cut path 47).1.contains 58 = false)
    (htail : tail = [] ∨ ∃ t2, tail = 63 :: t2) :
    getSchemeAux (path ++ tail) [] = some none := by
  cases hdp : path.dropWhile schemeByte with
  | nil =>
    have hall : ∀ b ∈ path, schemeByte b = true := by
      intro b hb
      have : path.takeWhile schemeByte = path := by
        have := List.takeWhile_append_dropWhile (p := schemeByte) (l := path)
        rw [hdp, List.append_nil] at this
        exact this
      rw [← this] at hb
      exact List.mem_takeWhile_imp hb
    rcases htail with h1 | ⟨t2, h1⟩
    · subst h1
      rw [List.append_nil]
      exact getSchemeAux_no_colon path [] (not_58_of_all_schemeByte hall)
    · subst h1
      exact getSchemeAux_stopper path [] 63 t2 hall schemeByte_63 (by omega)
  | cons cp pB =>
    have hpath : path = path.takeWhile schemeByte ++ cp :: pB := by
      have := List.takeWhile_append_dropWhile (p := schemeByte) (l := path)
      rw [hdp] at this
      exact this.symm
    have hpA : ∀ b ∈ path.takeWhile schemeByte, schemeByte b = true :=
      fun b hb => List.mem_takeWhile_imp hb
    have hcp : schemeByte cp = false := dropWhile_head_false hdp
    have hcp58 : cp ≠ 58 := by
      intro hc
      subst hc
      have h47 : 47 ∉ path.takeWhile schemeByte := by
        intro hc2
        have := hpA 47 hc2
        rw [schemeByte_47] at this
        exact absurd this (by simp)
      have hmem : 58 ∈ (cut path 47).1 := by
        rw [hpath]
        exact mem_cut_pre_58 pB h47
      rw [Bool.eq_false_iff] at hseg
      exact hseg (by simpa using hmem)
    have heq : path ++ tail = path.takeWhile schemeByte ++ cp :: (pB ++ tail) := by
      conv_lhs => rw [hpath]
      simp
    rw [heq]
    exact getSchemeAux_stopper _ [] cp _ hpA hcp hcp58

theorem append_two_ites (a x y : Str) (c1 c2 : Prop) [Decidable c1] [Decidable c2] :
    (if c2 then (if c1 then a ++ x else a) ++ y else (if c1 then a ++ x else a)) =
      a ++ (if c1 then x else []) ++ (if c2 then y else []) := by
  by_cases h1 : c1 <;> by_cases h2 : c2 <;> simp [h1, h2]

/-- The scheme/authority part of `URL.String()` output (`b2` in the code
above), pulled out as a definition so urlStringPre stays definitionally
equal to the corresponding piece of `urlString`. -/
def urlStringAuth (u : GoURL) : Str :=
  if u.scheme ≠ [] || u.host ≠ [] || u.user.isSome then
    if u.omitHost && u.host = [] && u.user.isNone then
      (if u.scheme ≠ [] then u.scheme ++ [58] else [])
    else
      let ba : Str :=
        if u.host ≠ [] || u.path ≠ [] || u.user.isSome then
          (if u.scheme ≠ [] then u.scheme ++ [58] else []) ++ [47, 47]
        else (if u.scheme ≠ [] then u.scheme ++ [58] else [])
      let bb : Str :=
        match u.user with
        | some ui => ba ++ userinfoString ui ++ [64]
        | none => ba
      if u.host ≠ [] then bb ++ escape u.host Encoding.host else bb
  else (if u.scheme ≠ [] then u.scheme ++ [58] else [])

/-- The part of `URL.String()` output before the query and fragment
(`buf2` in the code above). -/
def urlStringPre (u : GoURL) : Str :=
  if u.opaq ≠ [] then (if u.scheme ≠ [] then u.scheme ++ [58] else []) ++ u.opaq
  else
    (if escapedPath u ≠ [] && (escapedPath u).head? ≠ some 47 && u.host ≠ []
      then urlStringAuth u ++ [47] else urlStringAuth u) ++
    (if (if escapedPath u ≠ [] && (escapedPath u).head? ≠ some 47 && u.host ≠ []
          then urlStringAuth u ++ [47] else urlStringAuth u) = []
      then (if (cut (escapedPath u) 47).1.contains 58 then [46, 47] else [])
      else []) ++
    escapedPath u

theorem shape_base (S : Str) : ∃ M, S = S ++ M ∧ NoQH M :=
  ⟨[], by simp, NoQH_nil⟩

theorem shape_app {S X : Str} (h : ∃ M, X = S ++ M ∧ NoQH M) (Y : Str)
    (hY : NoQH Y) : ∃ M, X ++ Y = S ++ M ∧ NoQH M := by
  rcases h with ⟨M, rfl, hM⟩
  exact ⟨M ++ Y, by simp, NoQH_append hM hY⟩

theorem shape_ite {S : Str} (c : Prop) [Decidable c] {X Y : Str}
    (hX : ∃ M, X = S ++ M ∧ NoQH M) (hY : ∃ M, Y = S ++ M ∧ NoQH M) :
    ∃ M, (if c then X else Y) = S ++ M ∧ NoQH M := by
  split
  · exact hX
  · exact hY

theorem NoQH_4747 : NoQH ([47, 47] : Str) := by
  constructor <;> simp

theorem urlStringAuth_scheme (v : GoURL) (hsch : v.scheme ≠ []) :
    ∃ M, urlStringAuth v = (v.scheme ++ [58]) ++ M ∧ NoQH M := by
  simp only [urlStringAuth]
  rw [if_pos hsch]
  refine shape_ite _ (shape_ite _ (shape_base _) ?_) (shape_base _)
  cases hu : v.user with
  | none =>
    have hba : ∃ M,
        (if v.host ≠ [] || v.path ≠ [] || (none : Option Userinfo).isSome
          then (v.scheme ++ [58]) ++ [47, 47] else v.scheme ++ [58]) =
          (v.scheme ++ [58]) ++ M ∧ NoQH M :=
      shape_ite _ (shape_app (shape_base _) _ NoQH_4747) (shape_base _)
    refine shape_ite _ (shape_app ?_ _ (NoQH_escapeHost _)) ?_ <;> exact hba
  | some ui =>
    have hba : ∃ M,
        (if v.host ≠ [] || v.path ≠ [] || (some ui).isSome
          then (v.scheme ++ [58]) ++ [47, 47] else v.scheme ++ [58]) =
          (v.scheme ++ [58]) ++ M ∧ NoQH M :=
      shape_ite _ (shape_app (shape_base _) _ NoQH_4747) (shape_base _)
    refine shape_ite _ (shape_app ?_ _ (NoQH_escapeHost _)) ?_ <;>
      exact shape_app (shape_app hba _ (NoQH_userinfoString ui)) _
        (NoQH_cons (by omega) NoQH_nil)

theorem urlStringAuth_noscheme (v : GoURL) (hsch : v.scheme = []) :
    (urlStringAuth v = [] ∧ v.host = []) ∨
      ∃ M, urlStringAuth v = 47 :: 47 :: M ∧ NoQH M := by
  have hb1 : (if v.scheme ≠ [] then v.scheme ++ [58] else []) = ([] : Str) :=
    if_neg (by simp [hsch])
  simp only [urlStringAuth, hb1]
  by_cases hca : ((v.scheme ≠ [] || v.host ≠ [] || v.user.isSome) : Bool) = true
  · rw [if_pos hca]
    by_cases homit : ((v.omitHost && v.host = [] && v.user.isNone) : Bool) = true
    · exfalso
      rw [Bool.and_eq_true, Bool.and_eq_true] at homit
      obtain ⟨⟨_, hh⟩, hn⟩ := homit
      have hhost : v.host = [] := of_decide_eq_true hh
      have hnone : v.user = none := Option.isNone_iff_eq_none.mp hn
      rw [Bool.or_eq_true, Bool.or_eq_true] at hca
      rcases hca with (h1 | h1) | h1
      · exact (of_decide_eq_true h1) hsch
      · exact (of_decide_eq_true h1) hhost
      · rw [hnone] at h1
        exact absurd h1 (by simp)
    · rw [if_neg homit]
      right
      have hbacond : ((v.host ≠ [] || v.path ≠ [] || v.user.isSome) : Bool) = true := by
        rw [Bool.or_eq_true, Bool.or_eq_true] at hca ⊢
        rcases hca with (h1 | h1) | h1
        · exact absurd (of_decide_eq_true h1) (not_not_intro hsch)
        · exact Or.inl (Or.inl h1)
        · exact Or.inr h1
      rw [if_pos hbacond, List.nil_append]
      have hbb : ∃ M, (match v.user with
          | some ui => [47, 47] ++ userinfoString ui ++ [64]
          | none => ([47, 47] : Str)) = 47 :: 47 :: M ∧ NoQH M := by
        cases hu : v.user with
        | none => exact ⟨[], rfl, NoQH_nil⟩
        | some ui =>
          refine ⟨userinfoString ui ++ [64], by simp, ?_⟩
          exact NoQH_append (NoQH_userinfoString ui)
            (NoQH_cons (by omega) NoQH_nil)
      rcases hbb with ⟨M, hM, hMnq⟩
      rw [hM]
      split
      · exact ⟨M ++ escape v.host Encoding.host, by simp,
          NoQH_append hMnq (NoQH_escapeHost _)⟩
      · exact ⟨M, rfl, hMnq⟩
  · rw [if_neg hca]
    left
    refine ⟨rfl, ?_⟩
    by_contra hh
    refine hca ?_
    rw [Bool.or_eq_true, Bool.or_eq_true]
    exact Or.inl (Or.inr (decide_eq_true hh))

theorem getSchemeAux_head47 (rest : Str) :
    getSchemeAux (47 :: rest) [] = some none := by
  have h := getSchemeAux_stopper [] [] 47 rest
    (by intro b hb; exact absurd hb (List.not_mem_nil _)) schemeByte_47 (by omega)
  simpa using h

theorem urlString_eq_pre (u : GoURL) :
    urlString u = urlStringPre u ++
      (if u.forceQuery || u.rawQuery ≠ [] then 63 :: u.rawQuery else []) ++
      (if u.fragment ≠ [] then 35 :: escapedFragment u else []) :=
  append_two_ites (urlStringPre u) (63 :: u.rawQuery) (35 :: escapedFragment u) _ _

/-- Structure of `urlStringPre`: it contains no `?`/`#` byte; when the URL
has a scheme it is `scheme ++ ":" ++ body`; when it has none, `getScheme`
finds no scheme in it even with the query part appended. -/
theorem urlStringPre_split (v : GoURL) (hwf : ParsedWF v) :
    NoQH (urlStringPre v) ∧
    (v.scheme ≠ [] → ∃ BODY, urlStringPre v = v.scheme ++ 58 :: BODY) ∧
    (v.scheme = [] → ∀ tail : Str, (tail = [] ∨ ∃ t2, tail = 63 :: t2) →
      getSchemeAux (urlStringPre v ++ tail) [] = some none) := by
  have hpathNQ : NoQH (escapedPath v) := NoQH_escapedPath v hwf.rawPath_noqh
  by_cases hop : v.opaq = []
  case neg =>
    have hsch : v.scheme ≠ [] := hwf.opaq_scheme hop
    have hpre : urlStringPre v = (v.scheme ++ [58]) ++ v.opaq := by
      unfold urlStringPre
      rw [if_pos hop, if_pos hsch]
    refine ⟨?_, fun _ => ⟨v.opaq, by rw [hpre]; simp⟩, fun hs => absurd hs hsch⟩
    rw [hpre]
    exact NoQH_append (NoQH_schemeColon hwf.scheme_bytes) hwf.opaq_noqh
  case pos =>
    have hopn : ¬ (v.opaq ≠ []) := not_not_intro hop
    by_cases hsch : v.scheme = []
    case neg =>
      obtain ⟨M, hM, hMnq⟩ := urlStringAuth_scheme v hsch
      have hAne : urlStringAuth v ≠ [] := by rw [hM]; simp
      by_cases hb3c : ((escapedPath v ≠ [] && (escapedPath v).head? ≠ some 47 &&
          v.host ≠ []) : Bool) = true
      · have hpre : urlStringPre v =
            (urlStringAuth v ++ [47]) ++ [] ++ escapedPath v := by
          unfold urlStringPre
          rw [if_neg hopn, if_pos hb3c,
            if_neg (by simp : ¬ (urlStringAuth v ++ [47] = []))]
        refine ⟨?_, fun _ => ⟨M ++ [47] ++ escapedPath v, ?_⟩,
          fun hs => absurd hs hsch⟩
        · rw [hpre, hM]
          exact NoQH_append (NoQH_append (NoQH_append
            (NoQH_append (NoQH_schemeColon hwf.scheme_bytes) hMnq)
            (NoQH_cons (by omega) NoQH_nil)) NoQH_nil) hpathNQ
        · rw [hpre, hM]
          simp
      · have hpre : urlStringPre v = urlStringAuth v ++ [] ++ escapedPath v := by
          unfold urlStringPre
          rw [if_neg hopn, if_neg hb3c, if_neg hAne]
        refine ⟨?_, fun _ => ⟨M ++ escapedPath v, ?_⟩, fun hs => absurd hs hsch⟩
        · rw [hpre, hM]
          exact NoQH_append (NoQH_append
            (NoQH_append (NoQH_schemeColon hwf.scheme_bytes) hMnq) NoQH_nil) hpathNQ
        · rw [hpre, hM]
          simp
    case pos =>
      rcases urlStringAuth_noscheme v hsch with ⟨hA, hhost⟩ | ⟨M, hM, hMnq⟩
      · have hb3c : ¬ (((escapedPath v ≠ [] && (escapedPath v).head? ≠ some 47 &&
            v.host ≠ []) : Bool) = true) := by
          rw [Bool.and_eq_true]
          intro hcc
          exact (of_decide_eq_true hcc.2) hhost
        have hpre : urlStringPre v = urlStringAuth v ++
            (if (cut (escapedPath v) 47).1.contains 58 then [46, 47] else []) ++
            escapedPath v := by
          unfold urlStringPre
          rw [if_neg hopn, if_neg hb3c, if_pos hA]
        by_cases hcol : ((cut (escapedPath v) 47).1.contains 58 : Bool) = true
        · have hpre2 : urlStringPre v = 46 :: 47 :: escapedPath v := by
            rw [hpre, hA, if_pos hcol]
            simp
          refine ⟨?_, fun hs => absurd hsch hs, fun _ tail htail => ?_⟩
          · rw [hpre2]
            exact NoQH_cons (by omega) (NoQH_cons (by omega) hpathNQ)
          · rw [hpre2]
            exact getSchemeAux_dot _
        · have hpre2 : urlStringPre v = escapedPath v := by
            rw [hpre, hA, if_neg hcol]
            simp
          have hcol2 : (cut (escapedPath v) 47).1.contains 58 = false := by
            revert hcol
            cases (cut (escapedPath v) 47).1.contains 58 <;> simp
          refine ⟨?_, fun hs => absurd hsch hs, fun _ tail htail => ?_⟩
          · rw [hpre2]
            exact hpathNQ
          · rw [hpre2]
            exact getSchemeAux_none_pathCase _ tail hcol2 htail
      · have hAne : urlStringAuth v ≠ [] := by rw [hM]; simp
        by_cases hb3c : ((escapedPath v ≠ [] && (escapedPath v).head? ≠ some 47 &&
            v.host ≠ []) : Bool) = true
        · have hpre : urlStringPre v =
              (urlStringAuth v ++ [47]) ++ [] ++ escapedPath v := by
            unfold urlStringPre
            rw [if_neg hopn, if_pos hb3c,
              if_neg (by simp : ¬ (urlStringAuth v ++ [47] = []))]
          refine ⟨?_, fun hs => absurd hsch hs, fun _ tail htail => ?_⟩
          · rw [hpre, hM]
            exact NoQH_append (NoQH_append (NoQH_append
              (NoQH_cons (by omega) (NoQH_cons (by omega) hMnq))
              (NoQH_cons (by omega) NoQH_nil)) NoQH_nil) hpathNQ
          · rw [hpre, hM]
            exact getSchemeAux_head47 _
        · have hpre : urlStringPre v = urlStringAuth v ++ [] ++ escapedPath v := by
            unfold urlStringPre
            rw [if_neg hopn, if_neg hb3c, if_neg hAne]
          refine ⟨?_, fun hs => absurd hsch hs, fun _ tail htail => ?_⟩
          · rw [hpre, hM]
            exact NoQH_append (NoQH_append
              (NoQH_cons (by omega) (NoQH_cons (by omega) hMnq)) NoQH_nil) hpathNQ
          · rw [hpre, hM]
            exact getSchemeAux_head47 _

/-- `rawQueryOf` applied to a string of the form `PRE ++ query ++ fragment`
recovers the query, given a scheme-shape fact about `PRE`. -/
theorem rawQueryOf_assembled (PRE r' FP : Str) (hPnq : NoQH PRE) (hr : NoQH r')
    (hFP : FP = [] ∨ ∃ E, FP = 35 :: E)
    (hscheme :
      (∃ sch BODY, PRE = sch ++ 58 :: BODY ∧ (∀ b ∈ sch, schemeByte b = true) ∧
        (∃ c t, sch = c :: t ∧ isLetterB c = true)) ∨
      (∀ tail : Str, (tail = [] ∨ ∃ t2, tail = 63 :: t2) →
        getSchemeAux (PRE ++ tail) [] = some none)) :
    rawQueryOf (PRE ++ (if r' = [] then [] else 63 :: r') ++ FP) = r' := by
  have h35 : 35 ∉ PRE ++ (if r' = [] then ([] : Str) else 63 :: r') := by
    intro hmem
    rcases List.mem_append.mp hmem with h | h
    · exact hPnq.2 h
    · split at h
      · exact absurd h (List.not_mem_nil _)
      · rcases List.mem_cons.mp h with h | h
        · exact absurd h (by omega)
        · exact hr.2 h
  have hcut1 : (cut (PRE ++ (if r' = [] then ([] : Str) else 63 :: r') ++ FP) 35).1 =
      PRE ++ (if r' = [] then ([] : Str) else 63 :: r') := by
    rcases hFP with hFP | ⟨E, hFP⟩
    · subst hFP
      rw [List.append_nil, cut_not_found h35]
    · subst hFP
      rw [cut_append h35]
  simp only [rawQueryOf]
  rw [hcut1]
  rcases hscheme with ⟨sch, BODY, hP, hbytes, hhead⟩ | hnos
  · have hschne : sch ≠ [] := by
      rcases hhead with ⟨c, t, hct, _⟩
      rw [hct]
      simp
    have hne42 : ¬ (PRE ++ (if r' = [] then ([] : Str) else 63 :: r') = [42]) := by
      intro hc
      have h58 : 58 ∈ PRE ++ (if r' = [] then ([] : Str) else 63 :: r') :=
        List.mem_append_left _
          (hP ▸ List.mem_append_right _ (List.mem_cons_self _ _))
      rw [hc] at h58
      rcases List.mem_singleton.mp h58 with h
      omega
    rw [if_neg hne42]
    have hgs : getSchemeAux
        (PRE ++ (if r' = [] then ([] : Str) else 63 :: r')) [] =
        some (some (sch, BODY ++ (if r' = [] then ([] : Str) else 63 :: r'))) := by
      rw [hP]
      rw [show (sch ++ 58 :: BODY) ++ (if r' = [] then ([] : Str) else 63 :: r') =
        sch ++ 58 :: (BODY ++ (if r' = [] then ([] : Str) else 63 :: r')) by simp]
      have h := getSchemeAux_scheme sch []
        (BODY ++ (if r' = [] then ([] : Str) else 63 :: r')) hbytes
        (fun _ => hhead) (by simpa using hschne)
      simpa using h
    have hgs2 : getScheme (PRE ++ (if r' = [] then ([] : Str) else 63 :: r')) =
        some (sch, BODY ++ (if r' = [] then ([] : Str) else 63 :: r')) := by
      unfold getScheme
      rw [hgs]
    rw [hgs2]
    have hBnq : NoQH BODY := NoQH_sub
      (fun x hx => by
        rw [hP]
        exact List.mem_append_right _ (List.mem_cons_of_mem _ hx)) hPnq
    exact querySplit BODY r' hBnq hr.1
  · by_cases h42 : PRE ++ (if r' = [] then ([] : Str) else 63 :: r') = [42]
    · rw [if_pos h42]
      by_cases hre : r' = []
      · exact hre.symm
      · exfalso
        have h63 : 63 ∈ PRE ++ (if r' = [] then ([] : Str) else 63 :: r') :=
          List.mem_append_right _ (by
            rw [if_neg hre]
            exact List.mem_cons_self _ _)
        rw [h42] at h63
        rcases List.mem_singleton.mp h63 with h
        omega
    · rw [if_neg h42]
      have hgs : getSchemeAux
          (PRE ++ (if r' = [] then ([] : Str) else 63 :: r')) [] = some none := by
        refine hnos _ ?_
        by_cases hre : r' = []
        · exact Or.inl (by rw [if_pos hre])
        · exact Or.inr ⟨r', by rw [if_neg hre]⟩
      have hgs2 : getScheme (PRE ++ (if r' = [] then ([] : Str) else 63 :: r')) =
          some ([], PRE ++ (if r' = [] then ([] : Str) else 63 :: r')) := by
        unfold getScheme
        rw [hgs]
      rw [hgs2]
      exact querySplit PRE r' hPnq hr.1

/-- The R-lemma: serializing a parsed URL whose raw query was replaced by a
`?`/`#`-free string `r'`, then re-extracting the raw query, returns `r'`. -/
theorem rawQueryOf_urlString (u : GoURL) (hwf : ParsedWF u) (r' : Str)
    (hr : NoQH r') (hfq : u.forceQuery = false) :
    rawQueryOf (urlString { u with rawQuery := r' }) = r' := by
  have hwfv : ParsedWF { u with rawQuery := r' } :=
    ⟨hwf.scheme_bytes, hwf.scheme_head, hwf.opaq_noqh, hwf.opaq_scheme,
      hwf.rawPath_noqh, fun hq => absurd (hfq.symm.trans hq) (by simp)⟩
  obtain ⟨hNQ, hschS, hschN⟩ := urlStringPre_split { u with rawQuery := r' } hwfv
  have hQP : (if ({ u with rawQuery := r' } : GoURL).forceQuery ||
      ({ u with rawQuery := r' } : GoURL).rawQuery ≠ [] then
        (63 :: ({ u with rawQuery := r' } : GoURL).rawQuery : Str) else []) =
      (if r' = [] then [] else 63 :: r') := by
    by_cases hre : r' = [] <;> simp [hfq, hre]
  have hs : urlString { u with rawQuery := r' } =
      urlStringPre { u with rawQuery := r' } ++
      (if r' = [] then [] else 63 :: r') ++
      (if ({ u with rawQuery := r' } : GoURL).fragment ≠ [] then
        35 :: escapedFragment { u with rawQuery := r' } else []) := by
    rw [urlString_eq_pre, hQP]
  rw [hs]
  refine rawQueryOf_assembled _ _ _ hNQ hr ?_ ?_
  · by_cases hfr : ({ u with rawQuery := r' } : GoURL).fragment ≠ []
    · exact Or.inr ⟨escapedFragment { u with rawQuery := r' }, by rw [if_pos hfr]⟩
    · exact Or.inl (by rw [if_neg hfr])
  · by_cases hsch : ({ u with rawQuery := r' } : GoURL).scheme = []
    · exact Or.inr (hschN hsch)
    · left
      obtain ⟨BODY, hB⟩ := hschS hsch
      refine ⟨({ u with rawQuery := r' } : GoURL).scheme, BODY, hB,
        hwfv.scheme_bytes, ?_⟩
      rcases hwfv.scheme_head with h | h
      · exact absurd h hsch
      · exact h

/-! ## Sanitizer support lemmas -/

instance (s : Str) : Decidable (BytesOK s) := List.decidableBAll _ s

theorem delKey_sublist (q : Values) (k : Str) : List.Sublist (delKey q k) q := by
  induction q with
  | nil => simp [delKey]
  | cons p rest ih =>
    simp only [delKey]
    split
    · exact ih.cons _
    · exact ih.cons₂ _

theorem WFkeys_delKey {q : Values} (k : Str) (h : WFkeys q) :
    WFkeys (delKey q k) :=
  List.Nodup.sublist ((delKey_sublist q k).map Prod.fst) h

theorem WFvals_delKey {q : Values} (k : Str) (h : WFvals q) :
    WFvals (delKey q k) :=
  fun p hp => h p ((delKey_sublist q k).subset hp)

theorem WFbytes_delKey {q : Values} (k : Str) (h : WFbytes q) :
    WFbytes (delKey q k) :=
  fun p hp => h p ((delKey_sublist q k).subset hp)

theorem delKey_not_mem {q : Values} {k : Str} (h : lookupV q k = none) :
    delKey q k = q := by
  rw [lookupV_eq_none_iff] at h
  induction q with
  | nil => rfl
  | cons p rest ih =>
    simp only [List.map_cons, List.mem_cons] at h
    push_neg at h
    simp only [delKey]
    rw [if_neg (fun hc => h.1 hc.symm), ih h.2]

theorem rawQueryOf_subset (s : Str) : ∀ b ∈ rawQueryOf s, b ∈ s := by
  intro b hb
  simp only [rawQueryOf] at hb
  split at hb
  · exact absurd hb (List.not_mem_nil _)
  · cases hgs : getScheme (cut s 35).1 with
    | none => rw [hgs] at hb; exact absurd hb (List.not_mem_nil _)
    | some pr =>
      rw [hgs] at hb
      simp only at hb
      have hrest : ∀ x ∈ pr.2, x ∈ (cut s 35).1 := by
        unfold getScheme at hgs
        cases haux : getSchemeAux (cut s 35).1 [] with
        | none => rw [haux] at hgs; exact absurd hgs (by simp)
        | some o =>
          cases o with
          | none =>
            rw [haux] at hgs
            simp only [Option.some_inj] at hgs
            subst hgs
            exact fun x hx => hx
          | some pr2 =>
            rw [haux] at hgs
            simp only [Option.some_inj] at hgs
            subst hgs
            exact getSchemeAux_rest_subset _ [] pr2.1 pr2.2 (by rw [haux])
      split at hb
      · exact absurd hb (List.not_mem_nil _)
      · exact cut_pre_subset b (hrest b (cut_post_subset b hb))

/-- On success, `urlParse` of the empty string yields an empty raw query. -/
theorem removeTag_noop (s : Str)
    (h : urlParse s = none ∨
      (lookupV (queryOfString s) tagKey = none ∧
       lookupV (queryOfString s) taggingKey = none)) :
    removeTagParamsFromURL s = (s, false) := by
  unfold removeTagParamsFromURL
  by_cases hs : s = []
  · rw [if_pos hs]
  · rw [if_neg hs]
    cases hp : urlParse s with
    | none => rfl
    | some u =>
      rcases h with h | h
      · rw [hp] at h; exact absurd h (by simp)
      · have hrq := (urlParse_WF hp).2
        have hq : goQuery u = queryOfString s := by
          unfold goQuery queryOfString
          rw [hrq]
        simp only [hq, h.1, Option.isSome_none]
        have h2 : lookupV (if false = true then delKey (queryOfString s) tagKey
            else queryOfString s) taggingKey = none := by
          rw [if_neg (by simp)]
          exact h.2
        simp only [h2, Option.isSome_none]
        rw [if_pos (by simp)]

theorem removeTag_changed {s : Str} {u : GoURL} (hp : urlParse s = some u)
    (htag : ((lookupV (goQuery u) tagKey).isSome ||
      (lookupV (goQuery u) taggingKey).isSome) = true) :
    removeTagParamsFromURL s =
      (urlString { u with rawQuery := encodeValues (delKey (delKey (goQuery u) tagKey) taggingKey) }, true) := by
  have hsne : s ≠ [] := by
    intro hc
    subst hc
    have hrq := (urlParse_WF hp).2
    have hqnil : goQuery u = [] := by
      unfold goQuery
      rw [hrq]
      rfl
    rw [hqnil] at htag
    simp at htag
  unfold removeTagParamsFromURL
  rw [if_neg hsne, hp]
  simp only []
  cases hT : (lookupV (goQuery u) tagKey).isSome with
  | true =>
    rw [if_pos rfl]
    cases hTg : (lookupV (delKey (goQuery u) tagKey) taggingKey).isSome with
    | true =>
      rw [if_pos rfl, if_neg (by simp)]
    | false =>
      rw [if_neg (by simp), if_neg (by simp)]
      have hdel : delKey (delKey (goQuery u) tagKey) taggingKey =
          delKey (goQuery u) tagKey :=
        delKey_not_mem (Option.not_isSome_iff_eq_none.mp (by simp [hTg]))
      rw [hdel]
  | false =>
    have hq1 : (if (false = true) then delKey (goQuery u) tagKey
        else goQuery u) = goQuery u := by simp
    rw [hq1]
    have hTg : (lookupV (goQuery u) taggingKey).isSome = true := by
      rw [hT, Bool.false_or] at htag
      exact htag
    rw [if_pos hTg, if_neg (not_not_intro (by rw [Bool.false_or]; exact hTg))]
    have hdel : delKey (goQuery u) tagKey = goQuery u :=
      delKey_not_mem (Option.not_isSome_iff_eq_none.mp (by simp [hT]))
    rw [hdel]

/-- Looking up any key in the reparsed query of the sanitizer's rebuilt URL
equals looking it up in the deleted query. -/
theorem reparse_query {s : Str} {u : GoURL} (hb : BytesOK s)
    (hp : urlParse s = some u) (hfq : u.forceQuery = false) (k : Str) :
    lookupV (queryOfString (urlString { u with rawQuery := encodeValues (delKey (delKey (goQuery u) tagKey) taggingKey) })) k =
    lookupV (delKey (delKey (goQuery u) tagKey) taggingKey) k := by
  obtain ⟨hwf, hrq⟩ := urlParse_WF hp
  have hbq : BytesOK u.rawQuery := by
    rw [hrq]
    exact fun b hbm => hb b (rawQueryOf_subset s b hbm)
  obtain ⟨hk, hv, hbb⟩ := WF_parseQueryStr u.rawQuery hbq
  have hNQ : NoQH (encodeValues (delKey (delKey (goQuery u) tagKey) taggingKey)) :=
    NoQH_encodeValues _
  have hR := rawQueryOf_urlString u hwf _ hNQ hfq
  show lookupV (parseQueryStr (rawQueryOf (urlString _))) k = _
  rw [hR]
  exact lookupV_parseQueryStr_encode _
    (WFkeys_delKey _ (WFkeys_delKey _ hk))
    (WFvals_delKey _ (WFvals_delKey _ hv))
    (WFbytes_delKey _ (WFbytes_delKey _ hbb)) k

/-- If the parsed query has a `tag`/`tagging` key then the raw query is
nonempty, hence `ForceQuery` is off. -/
theorem forceQuery_false_of_tag {s : Str} {u : GoURL} (hp : urlParse s = some u)
    (htag : ((lookupV (goQuery u) tagKey).isSome ||
      (lookupV (goQuery u) taggingKey).isSome) = true) :
    u.forceQuery = false := by
  obtain ⟨hwf, _⟩ := urlParse_WF hp
  cases hfq : u.forceQuery with
  | false => rfl
  | true =>
    have hrq : u.rawQuery = [] := hwf.forceQuery_rawQuery hfq
    have hqnil : goQuery u = [] := by
      unfold goQuery
      rw [hrq]
      rfl
    rw [hqnil] at htag
    simp at htag

/-! ## Claim theorems: the URL sanitizer -/

/-- C1: for every URL string (with byte values < 256) that parses
successfully and whose query contains a `tag` or `tagging` key, the
sanitizer `removeTagParamsFromURL` returns changed=true together with a
URL whose reparsed query contains neither `tag` nor `tagging` but retains
every other key with the same values. -/
theorem claim_C1 (s : Str) (u : GoURL) (hb : BytesOK s)
    (hp : urlParse s = some u)
    (htag : ((lookupV (goQuery u) tagKey).isSome ||
      (lookupV (goQuery u) taggingKey).isSome) = true) :
    ∃ t, removeTagParamsFromURL s = (t, true) ∧
      lookupV (queryOfString t) tagKey = none ∧
      lookupV (queryOfString t) taggingKey = none ∧
      ∀ k, k ≠ tagKey → k ≠ taggingKey →
        lookupV (queryOfString t) k = lookupV (goQuery u) k := by
  have hfq := forceQuery_false_of_tag hp htag
  refine ⟨_, removeTag_changed hp htag, ?_, ?_, ?_⟩
  · rw [reparse_query hb hp hfq, lookupV_delKey_other _ _ _ (by decide),
      lookupV_delKey_same]
  · rw [reparse_query hb hp hfq, lookupV_delKey_same]
  · intro k hk1 hk2
    rw [reparse_query hb hp hfq, lookupV_delKey_other _ _ _ hk2,
      lookupV_delKey_other _ _ _ hk1]

theorem claim_C1_witness :
    BytesOK (strB "https://e/p?tag=1&tagging=2&foo=bar") ∧
    ∃ t, removeTagParamsFromURL (strB "https://e/p?tag=1&tagging=2&foo=bar") =
        (t, true) ∧
      lookupV (queryOfString t) tagKey = none ∧
      lookupV (queryOfString t) taggingKey = none := by
  refine ⟨by decide, ?_⟩
  obtain ⟨t, h1, h2, h3, _⟩ :=
    claim_C1 (strB "https://e/p?tag=1&tagging=2&foo=bar")
      { scheme := strB "https", host := strB "e", path := strB "/p", rawQuery := strB "tag=1&tagging=2&foo=bar" }
      (by decide) (by decide) (by decide)
  exact ⟨t, h1, h2, h3⟩

/-- C3: the sanitizer is idempotent: for every byte string, the URL it
returns is a fixed point of the sanitizer (with changed=false on the
second application). -/
theorem claim_C3 (s : Str) (hb : BytesOK s) :
    removeTagParamsFromURL ((removeTagParamsFromURL s).1) =
      ((removeTagParamsFromURL s).1, false) := by
  cases hp : urlParse s with
  | none =>
    have h0 := removeTag_noop s (Or.inl hp)
    rw [h0]
    exact h0
  | some u =>
    cases hT : ((lookupV (goQuery u) tagKey).isSome ||
        (lookupV (goQuery u) taggingKey).isSome) with
    | false =>
      rw [Bool.or_eq_false_iff] at hT
      have hrq := (urlParse_WF hp).2
      have hqs : queryOfString s = goQuery u := by
        unfold goQuery queryOfString
        rw [hrq]
      have h0 := removeTag_noop s (Or.inr
        ⟨by rw [hqs]; exact Option.not_isSome_iff_eq_none.mp (by simp [hT.1]),
         by rw [hqs]; exact Option.not_isSome_iff_eq_none.mp (by simp [hT.2])⟩)
      rw [h0]
      exact h0
    | true =>
      have hfq := forceQuery_false_of_tag hp hT
      have hch := removeTag_changed hp hT
      rw [hch]
      show removeTagParamsFromURL (urlString { u with rawQuery := encodeValues (delKey (delKey (goQuery u) tagKey) taggingKey) }) = (urlString { u with rawQuery := encodeValues (delKey (delKey (goQuery u) tagKey) taggingKey) }, false)
      refine removeTag_noop _ (Or.inr ⟨?_, ?_⟩)
      · rw [reparse_query hb hp hfq, lookupV_delKey_other _ _ _ (by decide),
          lookupV_delKey_same]
      · rw [reparse_query hb hp hfq, lookupV_delKey_same]

theorem claim_C3_witness :
    BytesOK (strB "https://e/p?tag=1&tagging=2&foo=bar") ∧
    removeTagParamsFromURL
        ((removeTagParamsFromURL (strB "https://e/p?tag=1&tagging=2&foo=bar")).1) =
      ((removeTagParamsFromURL (strB "https://e/p?tag=1&tagging=2&foo=bar")).1,
        false) :=
  ⟨by decide, claim_C3 (strB "https://e/p?tag=1&tagging=2&foo=bar") (by decide)⟩

/-- C4: for every input string that fails to parse, or parses to a URL
whose query has neither a `tag` nor a `tagging` key, the (total) sanitizer
returns the input unchanged with changed=false. -/
theorem claim_C4 (s : Str)
    (h : urlParse s = none ∨
      (lookupV (queryOfString s) tagKey = none ∧
       lookupV (queryOfString s) taggingKey = none)) :
    removeTagParamsFromURL s = (s, false) :=
  removeTag_noop s h

theorem claim_C4_witness :
    (urlParse (strB "https://e/p?foo=bar") = none ∨
      (lookupV (queryOfString (strB "https://e/p?foo=bar")) tagKey = none ∧
       lookupV (queryOfString (strB "https://e/p?foo=bar")) taggingKey = none)) ∧
    removeTagParamsFromURL (strB "https://e/p?foo=bar") =
      (strB "https://e/p?foo=bar", false) :=
  ⟨Or.inr ⟨by decide, by decide⟩,
   claim_C4 _ (Or.inr ⟨by decide, by decide⟩)⟩

/-- C10: the sanitizer modifies at most the query component: on parse
success it either returns the input unchanged, or serializes a URL record
that differs from the parsed input only in its raw query (scheme, host,
user, path, fragment and the rest all preserved). -/
theorem claim_C10 (s : Str) (u : GoURL) (hp : urlParse s = some u) :
    removeTagParamsFromURL s = (s, false) ∨
    ∃ v : GoURL, removeTagParamsFromURL s = (urlString v, true) ∧
      v.scheme = u.scheme ∧ v.opaq = u.opaq ∧ v.user = u.user ∧
      v.host = u.host ∧ v.omitHost = u.omitHost ∧ v.path = u.path ∧
      v.rawPath = u.rawPath ∧ v.fragment = u.fragment ∧
      v.rawFragment = u.rawFragment ∧
      v.rawQuery = encodeValues (delKey (delKey (goQuery u) tagKey) taggingKey) := by
  cases hT : ((lookupV (goQuery u) tagKey).isSome ||
      (lookupV (goQuery u) taggingKey).isSome) with
  | false =>
    left
    rw [Bool.or_eq_false_iff] at hT
    have hrq := (urlParse_WF hp).2
    have hqs : queryOfString s = goQuery u := by
      unfold goQuery queryOfString
      rw [hrq]
    exact removeTag_noop s (Or.inr
      ⟨by rw [hqs]; exact Option.not_isSome_iff_eq_none.mp (by simp [hT.1]),
       by rw [hqs]; exact Option.not_isSome_iff_eq_none.mp (by simp [hT.2])⟩)
  | true =>
    right
    exact ⟨_, removeTag_changed hp hT, rfl, rfl, rfl, rfl, rfl, rfl, rfl, rfl,
      rfl, rfl⟩

theorem claim_C10_witness :
    ∃ v : GoURL, removeTagParamsFromURL (strB "https://e/p?tag=1&foo=bar") =
        (urlString v, true) ∧
      v.scheme = strB "https" ∧ v.host = strB "e" ∧ v.path = strB "/p" ∧
      v.fragment = [] := by
  rcases claim_C10 (strB "https://e/p?tag=1&foo=bar")
      { scheme := strB "https", host := strB "e", path := strB "/p", rawQuery := strB "tag=1&foo=bar" }
      (by decide) with h | ⟨v, hv, h1, _, _, h4, _, h6, _, h8, _, _⟩
  · exact absurd h (by decide)
  · exact ⟨v, hv, h1.trans (by decide), h4.trans (by decide),
      h6.trans (by decide), h8.trans (by decide)⟩

/-! ## The migrators (src/main.go)

The database is modeled as the list of rows matching the fetch query's
row-level WHERE filters, held in ascending-id order (`ORDER BY id ASC`): a
fetch with cursor `c` and limit `B` returns the first `B` rows with id > c
(`WHERE id > ? ... LIMIT ?`). SQL UPDATE statements are collected as
explicit write records instead of being executed; `json.Unmarshal` /
`json.Marshal` of the partner meta are abstract parameters over a JSON
value tree. `MigStats` carries the loop counters of `migrate*RemoveTag`
plus the visited ids, the writes and the number of fetch calls. -/


/-- The loop-local counters of `migrate{Bulk,Partner,Client}RemoveTag`
(src/main.go lines 127-133 etc.), plus the observable effects: the ids
visited (in processing order), the UPDATE statements issued (as write
records of type `W`), and how many times the fetch query ran. -/
structure MigStats (W : Type) where
  batchNum : Nat := 0
  totalRows : Nat := 0
  totalUpdated : Nat := 0
  totalSkipped : Nat := 0
  visited : List Int := []
  writes : List W := []
  fetches : Nat := 0
deriving Repr, DecidableEq

/-- One iteration of the `for _, r := range rows` body (src/main.go lines
148-163): count the row, advance the cursor to its id, and fold in the
processor's (updated, skipped, writes) result. -/
def stepRow {R W : Type} (process : R → Bool × Bool × List W) (idOf : R → Int) (acc : MigStats W × Int) (r : R) : MigStats W × Int :=
  let res := process r
  ({ acc.1 with totalRows := acc.1.totalRows + 1, totalUpdated := acc.1.totalUpdated + (if res.1 then 1 else 0), totalSkipped := acc.1.totalSkipped + (if res.2.1 then 1 else 0), visited := acc.1.visited ++ [idOf r], writes := acc.1.writes ++ res.2.2 }, idOf r)

/-- Processing one fetched page of rows. -/
def processPage {R W : Type} (process : R → Bool × Bool × List W) (idOf : R → Int) (rows : List R) (st : MigStats W) (c : Int) : MigStats W × Int :=
  rows.foldl (stepRow process idOf) (st, c)

/-- `fetchBulkBatch`/`fetchPartnerBatch`/`fetchClientBatch` (src/main.go
lines 170-190, 313-331, 469-492): on a table in ascending-id order,
`WHERE id > ? ... ORDER BY id ASC LIMIT ?` returns the first `limit`
rows beyond the cursor. -/
def fetchBatch {R : Type} (idOf : R → Int) (table : List R) (c : Int) (B : Nat) : List R :=
  (table.filter (fun r => c < idOf r)).take B

theorem processPage_snd {R W : Type} (process : R → Bool × Bool × List W) (idOf : R → Int) (rows : List R) : ∀ (st : MigStats W) (c : Int), (processPage process idOf rows st c).2 = (rows.map idOf).getLastD c := by
  induction rows with
  | nil => intro st c; rfl
  | cons r rest ih =>
    intro st c
    show (processPage process idOf rest _ (idOf r)).2 = _
    rw [ih, List.map_cons, List.getLastD_cons]

theorem filter_sublist_mono {A : Type} {p q : A → Bool} (l : List A) (h : ∀ x, p x = true → q x = true) : List.Sublist (l.filter p) (l.filter q) := by
  induction l with
  | nil => simp
  | cons a t ih =>
    rw [List.filter_cons, List.filter_cons]
    by_cases hp : p a = true
    · rw [if_pos hp, if_pos (h a hp)]
      exact ih.cons₂ a
    · rw [if_neg (by simp [hp])]
      by_cases hq : q a = true
      · rw [if_pos hq]; exact ih.cons a
      · rw [if_neg (by simp [hq])]; exact ih

theorem getLastD_mem_map {A : Type} (f : A → Int) : ∀ (l : List A), l ≠ [] → ∀ d : Int, ∃ r ∈ l, f r = (l.map f).getLastD d := by
  intro l
  induction l with
  | nil => intro h; exact absurd rfl h
  | cons a t ih =>
    intro _ d
    by_cases ht : t = []
    · subst ht
      exact ⟨a, List.mem_cons_self _ _, rfl⟩
    · obtain ⟨r, hr, hid⟩ := ih ht (f a)
      refine ⟨r, List.mem_cons_of_mem _ hr, ?_⟩
      rw [List.map_cons, List.getLastD_cons]
      exact hid

theorem fetch_measure_lt {R : Type} (idOf : R → Int) (table : List R) (c : Int) (B : Nat) (hne : fetchBatch idOf table c B ≠ []) : (table.filter (fun r => ((fetchBatch idOf table c B).map idOf).getLastD c < idOf r)).length < (table.filter (fun r => c < idOf r)).length := by
  obtain ⟨rs, hrs, hy⟩ := getLastD_mem_map idOf (fetchBatch idOf table c B) hne c
  have hmem : rs ∈ table.filter (fun r => c < idOf r) :=
    List.take_subset _ _ hrs
  have hcy : c < idOf rs := by
    have := List.mem_filter.mp hmem
    exact of_decide_eq_true this.2
  have hsub : List.Sublist (table.filter (fun r => ((fetchBatch idOf table c B).map idOf).getLastD c < idOf r)) (table.filter (fun r => c < idOf r)) := by
    refine filter_sublist_mono table ?_
    intro x hx
    have hyx := of_decide_eq_true hx
    rw [← hy] at hyx
    exact decide_eq_true (lt_trans hcy hyx)
  refine Nat.lt_of_le_of_ne hsub.length_le ?_
  intro heq
  have heql := hsub.eq_of_length heq
  rw [← heql] at hmem
  have := (List.mem_filter.mp hmem).2
  rw [← hy] at this
  have h2 := of_decide_eq_true this
  exact lt_irrefl _ h2

/-- The shared cursor loop of all three `migrate*RemoveTag` functions
(src/main.go lines 123-168, 266-311, 420-467): fetch a page; stop when it
is empty; otherwise count the batch, process each row, and continue from
the last row's id. -/
def migrateLoop {R W : Type} (process : R → Bool × Bool × List W) (idOf : R → Int) (table : List R) (B : Nat) (c : Int) (st : MigStats W) : MigStats W :=
  match hne : fetchBatch idOf table c B with
  | [] => { st with fetches := st.fetches + 1 }
  | r0 :: rest =>
    let p := processPage process idOf (r0 :: rest) { st with fetches := st.fetches + 1, batchNum := st.batchNum + 1 } c
    migrateLoop process idOf table B p.2 p.1
termination_by (table.filter (fun r => c < idOf r)).length
decreasing_by
  rw [processPage_snd, ← hne]
  exact fetch_measure_lt idOf table c B (by rw [hne]; simp)

theorem foldl_step_batchNum {R W : Type} (process : R → Bool × Bool × List W)
    (idOf : R → Int) (rows : List R) : ∀ acc : MigStats W × Int,
    (rows.foldl (stepRow process idOf) acc).1.batchNum = acc.1.batchNum := by
  induction rows with
  | nil => intro acc; rfl
  | cons r rest ih =>
    intro acc
    rw [List.foldl_cons, ih]
    rfl

theorem foldl_step_fetches {R W : Type} (process : R → Bool × Bool × List W)
    (idOf : R → Int) (rows : List R) : ∀ acc : MigStats W × Int,
    (rows.foldl (stepRow process idOf) acc).1.fetches = acc.1.fetches := by
  induction rows with
  | nil => intro acc; rfl
  | cons r rest ih =>
    intro acc
    rw [List.foldl_cons, ih]
    rfl

theorem foldl_step_visited {R W : Type} (process : R → Bool × Bool × List W)
    (idOf : R → Int) (rows : List R) : ∀ acc : MigStats W × Int,
    (rows.foldl (stepRow process idOf) acc).1.visited =
      acc.1.visited ++ rows.map idOf := by
  induction rows with
  | nil => intro acc; simp
  | cons r rest ih =>
    intro acc
    rw [List.foldl_cons, ih]
    simp [stepRow]

theorem foldl_step_totalRows {R W : Type} (process : R → Bool × Bool × List W)
    (idOf : R → Int) (rows : List R) : ∀ acc : MigStats W × Int,
    (rows.foldl (stepRow process idOf) acc).1.totalRows =
      acc.1.totalRows + rows.length := by
  induction rows with
  | nil => intro acc; rfl
  | cons r rest ih =>
    intro acc
    rw [List.foldl_cons, ih]
    simp [stepRow]
    omega

theorem foldl_step_updated {R W : Type} (process : R → Bool × Bool × List W)
    (idOf : R → Int) (rows : List R) : ∀ acc : MigStats W × Int,
    (rows.foldl (stepRow process idOf) acc).1.totalUpdated =
      acc.1.totalUpdated + rows.countP (fun r => (process r).1) := by
  induction rows with
  | nil => intro acc; rfl
  | cons r rest ih =>
    intro acc
    rw [List.foldl_cons, ih]
    simp [stepRow, List.countP_cons]
    omega

theorem foldl_step_skipped {R W : Type} (process : R → Bool × Bool × List W)
    (idOf : R → Int) (rows : List R) : ∀ acc : MigStats W × Int,
    (rows.foldl (stepRow process idOf) acc).1.totalSkipped =
      acc.1.totalSkipped + rows.countP (fun r => (process r).2.1) := by
  induction rows with
  | nil => intro acc; rfl
  | cons r rest ih =>
    intro acc
    rw [List.foldl_cons, ih]
    simp [stepRow, List.countP_cons]
    omega

theorem foldl_step_writes {R W : Type} (process : R → Bool × Bool × List W)
    (idOf : R → Int) (rows : List R) : ∀ acc : MigStats W × Int,
    (rows.foldl (stepRow process idOf) acc).1.writes =
      acc.1.writes ++ rows.flatMap (fun r => (process r).2.2) := by
  induction rows with
  | nil => intro acc; simp
  | cons r rest ih =>
    intro acc
    rw [List.foldl_cons, ih]
    simp [stepRow]

/-- A `bulk` row (src/main.go lines 23-26): `sql.NullString` becomes
`Option Str`. -/
structure BulkRow where
  id : Int
  archiveFile : Option Str
deriving Repr, DecidableEq

/-- `processBulkRowRemoveTag` (src/main.go lines 192-224), with the
global `bulkS3Prefix` passed explicitly and the UPDATE emitted as a write
record; the DB update itself is modeled as succeeding. -/
def processBulkRowRemoveTag (bulkS3 : Str) (row : BulkRow) (dryRun : Bool) : Bool × Bool × List (Int × Str) :=
  match row.archiveFile with
  | none => (false, true, [])
  | some af =>
    let raw := trimSpace af
    if raw = [] then (false, true, [])
    else
      let nc := removeTagParamsFromURL raw
      if nc.2 = false then (false, true, [])
      else
        let newURL := normalizeBulkArchiveURL bulkS3 nc.1
        if dryRun then (false, false, [])
        else (true, false, [(row.id, newURL)])

/-- `migrateBulkRemoveTag` (src/main.go lines 123-168). -/
def migrateBulkRemoveTag (bulkS3 : Str) (dryRun : Bool) (table : List BulkRow) (B : Nat) : MigStats (Int × Str) :=
  migrateLoop (fun r => processBulkRowRemoveTag bulkS3 r dryRun) (fun r => r.id) table B 0 {}

/-- A JSON value tree standing for Go's decoded `interface{}`
(`map[string]interface{}`, `[]interface{}`, `string`, numbers, bools,
null); numbers are abstracted to `Int`. -/
inductive JVal where
  | jnull : JVal
  | jbool : Bool → JVal
  | jnum : Int → JVal
  | jstr : Str → JVal
  | jarr : List JVal → JVal
  | jobj : List (Str × JVal) → JVal
deriving Repr

/-- Access `metaMap[key]` on the decoded JSON object, modeled as an
association list with distinct keys. -/
def jLookup : List (Str × JVal) → Str → Option JVal
  | [], _ => none
  | p :: rest, k => if p.1 = k then some p.2 else jLookup rest k

/-- Assignment `metaMap[key] = v`: replaces the key's entry in place,
appends if absent. -/
def jSet : List (Str × JVal) → Str → JVal → List (Str × JVal)
  | [], k, v => [(k, v)]
  | p :: rest, k, v => if p.1 = k then (k, v) :: rest else p :: jSet rest k v

/-- The JSON key `"partner_pos_attach_files"`. -/
def metaKeyPPAF : Str := strB "partner_pos_attach_files"

/-- The per-entry body of the `for _, item := range files` loop
(src/main.go lines 365-378): sanitize string entries, pass everything
else through; the Bool is that entry's `modified` flag. -/
def jTransformFile (item : JVal) : JVal × Bool :=
  match item with
  | JVal.jstr s =>
    let nc := removeTagParamsFromURL s
    if nc.2 then (JVal.jstr nc.1, true) else (JVal.jstr s, false)
  | other => (other, false)

/-- `processPartnerRowRemoveTag`'s transformation of the decoded meta
map (src/main.go lines 353-385): `none` means the row is skipped (key
absent, not a list, empty list, or nothing changed). -/
def processPartnerMeta (metaMap : List (Str × JVal)) : Option (List (Str × JVal)) :=
  match jLookup metaMap metaKeyPPAF with
  | none => none
  | some v =>
    match v with
    | JVal.jarr [] => none
    | JVal.jarr (f0 :: fs) =>
      let results := (f0 :: fs).map jTransformFile
      if results.any (fun r => r.2) then
        some (jSet metaMap metaKeyPPAF (JVal.jarr (results.map (fun r => r.1))))
      else none
    | _ => none

/-- A `partner` row (src/main.go lines 28-31). -/
structure PartnerRow where
  partnerId : Int
  meta : Option Str
deriving Repr

/-- `processPartnerRowRemoveTag` (src/main.go lines 333-405);
`json.Unmarshal` and `json.Marshal` are the abstract parameters `unm`
(returning `none` on invalid JSON) and `mar`. -/
def processPartnerRowRemoveTag (unm : Str → Option (List (Str × JVal))) (mar : List (Str × JVal) → Str) (row : PartnerRow) (dryRun : Bool) : Bool × Bool × List (Int × Str) :=
  match row.meta with
  | none => (false, true, [])
  | some m =>
    let rawMeta := trimSpace m
    if rawMeta = [] then (false, true, [])
    else
      match unm rawMeta with
      | none => (false, true, [])
      | some metaMap =>
        match processPartnerMeta metaMap with
        | none => (false, true, [])
        | some newMap =>
          if dryRun then (false, false, [])
          else (true, false, [(row.partnerId, mar newMap)])

/-- `migratePartnerRemoveTag` (src/main.go lines 266-311). -/
def migratePartnerRemoveTag (unm : Str → Option (List (Str × JVal))) (mar : List (Str × JVal) → Str) (dryRun : Bool) (table : List PartnerRow) (B : Nat) : MigStats (Int × Str) :=
  migrateLoop (fun r => processPartnerRowRemoveTag unm mar r dryRun) (fun r => r.partnerId) table B 0 {}

/-- A `client` row (src/main.go lines 33-39). -/
structure ClientRow where
  clientId : Int
  clientContractAttachment : Option Str
  clientTaxAttachment : Option Str
  clientPksAttachment : Option Str
deriving Repr, DecidableEq

/-- The three client attachment column names (src/main.go lines 521-523). -/
def colContract : Str := strB "client_contract_attachment_url"

def colTax : Str := strB "client_tax_attachment"

def colPks : Str := strB "client_pks_attachment"

/-- The `handleCol` closure (src/main.go lines 503-516): appends the
(column, newURL) pair to the updates when the column is non-null,
non-blank after trimming, starts with the signed-URL prefix, and the
sanitizer changed it. The Go `updates` map has the three fixed distinct
column names as keys, so an insertion-ordered list carries the same
content. -/
def handleCol (pfx : Str) (col : Str) (v : Option Str) (updates : List (Str × Str)) : List (Str × Str) :=
  match v with
  | none => updates
  | some s =>
    let raw := trimSpace s
    if raw = [] then updates
    else if hasPrefixB raw pfx = false then updates
    else
      let nc := removeTagParamsFromURL raw
      if nc.2 then updates ++ [(col, nc.1)] else updates

/-- The update set collected by the three `handleCol` calls
(src/main.go lines 521-523). -/
def clientUpdates (pfx : Str) (row : ClientRow) : List (Str × Str) :=
  handleCol pfx colPks row.clientPksAttachment (handleCol pfx colTax row.clientTaxAttachment (handleCol pfx colContract row.clientContractAttachment []))

/-- `processClientRowRemoveTag` with `applyClientUpdates` (src/main.go
lines 495-560): one write record carrying exactly the changed columns. -/
def processClientRowRemoveTag (pfx : Str) (row : ClientRow) (dryRun : Bool) : Bool × Bool × List (Int × List (Str × Str)) :=
  let updates := clientUpdates pfx row
  if updates = [] then (false, true, [])
  else if dryRun then (false, false, [])
  else (true, false, [(row.clientId, updates)])

/-- `migrateClientRemoveTag` (src/main.go lines 420-467); the global
`hydraSignPrefix` is passed explicitly. -/
def migrateClientRemoveTag (pfx : Str) (dryRun : Bool) (table : List ClientRow) (B : Nat) : MigStats (Int × List (Str × Str)) :=
  migrateLoop (fun r => processClientRowRemoveTag pfx r dryRun) (fun r => r.clientId) table B 0 {}



/-! ## The cursor loop on a sorted table -/

theorem mem_le_getLastD {R : Type} (idOf : R → Int) :
    ∀ (l : List R), l.Pairwise (fun a b => idOf a < idOf b) →
    ∀ x ∈ l, ∀ d : Int, idOf x ≤ (l.map idOf).getLastD d := by
  intro l
  induction l with
  | nil =>
    intro _ x hx
    exact absurd hx (List.not_mem_nil _)
  | cons a t ih =>
    intro hp x hx d
    rw [List.map_cons, List.getLastD_cons]
    rcases List.mem_cons.mp hx with rfl | hxt
    · by_cases ht : t = []
      · subst ht
        simp
      · obtain ⟨r, hr, hrid⟩ := getLastD_mem_map idOf t ht (idOf x)
        rw [← hrid]
        exact le_of_lt ((List.pairwise_cons.mp hp).1 r hr)
    · exact ih (List.pairwise_cons.mp hp).2 x hxt (idOf a)

/-- After a nonempty fetch, the rows beyond the new cursor are exactly the
old remainder with the fetched page dropped. -/
theorem filter_cursor_drop {R : Type} (idOf : R → Int) (table : List R)
    (hs : table.Pairwise (fun a b => idOf a < idOf b)) (c : Int) (B : Nat)
    (hne : fetchBatch idOf table c B ≠ []) :
    table.filter (fun r => ((fetchBatch idOf table c B).map idOf).getLastD c < idOf r) =
      (table.filter (fun r => c < idOf r)).drop B := by
  obtain ⟨rs, hrs, hy⟩ := getLastD_mem_map idOf _ hne c
  have hmemL : rs ∈ table.filter (fun r => c < idOf r) := List.take_subset _ _ hrs
  have hcy : c < ((fetchBatch idOf table c B).map idOf).getLastD c := by
    rw [← hy]
    exact of_decide_eq_true (List.mem_filter.mp hmemL).2
  have hLs : (table.filter (fun r => c < idOf r)).Pairwise
      (fun a b => idOf a < idOf b) :=
    List.Pairwise.sublist (List.filter_sublist _) hs
  have h2 : table.filter
      (fun r => ((fetchBatch idOf table c B).map idOf).getLastD c < idOf r) =
      (table.filter (fun r => c < idOf r)).filter
        (fun r => ((fetchBatch idOf table c B).map idOf).getLastD c < idOf r) := by
    rw [List.filter_filter]
    refine List.filter_congr ?_
    intro x _
    by_cases hx : ((fetchBatch idOf table c B).map idOf).getLastD c < idOf x
    · rw [decide_eq_true hx, decide_eq_true (lt_trans hcy hx)]
      rfl
    · rw [decide_eq_false hx]
      rfl
  have hLpw : ((table.filter (fun r => c < idOf r)).take B ++
      (table.filter (fun r => c < idOf r)).drop B).Pairwise
      (fun a b => idOf a < idOf b) := by
    rw [List.take_append_drop]
    exact hLs
  obtain ⟨hpw1, hpw2, hcross⟩ := List.pairwise_append.mp hLpw
  have hnil : ((table.filter (fun r => c < idOf r)).take B).filter
      (fun r => ((fetchBatch idOf table c B).map idOf).getLastD c < idOf r) = [] := by
    rw [List.filter_eq_nil_iff]
    intro x hx
    have hle : idOf x ≤ ((fetchBatch idOf table c B).map idOf).getLastD c :=
      mem_le_getLastD idOf _ hpw1 x hx c
    simp only [decide_eq_true_eq]
    omega
  have hall : ((table.filter (fun r => c < idOf r)).drop B).filter
      (fun r => ((fetchBatch idOf table c B).map idOf).getLastD c < idOf r) =
      (table.filter (fun r => c < idOf r)).drop B := by
    rw [List.filter_eq_self]
    intro x hx
    have hlt : idOf rs < idOf x := hcross rs hrs x hx
    rw [← hy]
    exact decide_eq_true hlt
  rw [h2]
  conv_lhs => rw [← List.take_append_drop B (table.filter (fun r => c < idOf r))]
  rw [List.filter_append, hnil, List.nil_append, hall]

theorem ceil_step (K B : Nat) (hB : 0 < B) (hK : 0 < K) :
    (K + B - 1) / B = (K - B + B - 1) / B + 1 := by
  by_cases hKB : K ≤ B
  · have h1 : K - B = 0 := by omega
    rw [h1]
    have h2 : (0 + B - 1) / B = 0 := Nat.div_eq_of_lt (by omega)
    rw [h2]
    have h3 : K + B - 1 = (K - 1) + B := by omega
    rw [h3, Nat.add_div_right _ hB]
    have h4 : (K - 1) / B = 0 := Nat.div_eq_of_lt (by omega)
    omega
  · have h1 : K + B - 1 = (K - B + B - 1) + B := by omega
    rw [h1, Nat.add_div_right _ hB]

/-- The full behaviour of the cursor loop over a sorted table: page count,
fetch count, visit order, and the per-row counters and writes. -/
theorem migrateLoop_run {R W : Type} (process : R → Bool × Bool × List W)
    (idOf : R → Int) (table : List R) (B : Nat) (hB : 0 < B)
    (hs : table.Pairwise (fun a b => idOf a < idOf b)) :
    ∀ n c (st : MigStats W), (table.filter (fun r => c < idOf r)).length = n →
    (migrateLoop process idOf table B c st).batchNum = st.batchNum + (n + B - 1) / B ∧
    (migrateLoop process idOf table B c st).fetches = st.fetches + (n + B - 1) / B + 1 ∧
    (migrateLoop process idOf table B c st).visited =
      st.visited ++ (table.filter (fun r => c < idOf r)).map idOf ∧
    (migrateLoop process idOf table B c st).totalRows = st.totalRows + n ∧
    (migrateLoop process idOf table B c st).totalUpdated = st.totalUpdated +
      (table.filter (fun r => c < idOf r)).countP (fun r => (process r).1) ∧
    (migrateLoop process idOf table B c st).totalSkipped = st.totalSkipped +
      (table.filter (fun r => c < idOf r)).countP (fun r => (process r).2.1) ∧
    (migrateLoop process idOf table B c st).writes = st.writes ++
      (table.filter (fun r => c < idOf r)).flatMap (fun r => (process r).2.2) := by
  intro n
  induction n using Nat.strong_induction_on with
  | _ n ih =>
    intro c st hn
    rw [migrateLoop.eq_def]
    split
    · rename_i hfe
      have hfil : table.filter (fun r => c < idOf r) = [] := by
        have h0 : List.take B (table.filter (fun r => c < idOf r)) = [] := hfe
        rcases List.take_eq_nil_iff.mp h0 with h | h
        · omega
        · exact h
      rw [hfil] at hn
      simp only [List.length_nil] at hn
      subst hn
      have hc0 : (0 + B - 1) / B = 0 := Nat.div_eq_of_lt (by omega)
      rw [hfil, hc0]
      refine ⟨rfl, rfl, by simp, rfl, by simp, by simp, by simp⟩
    · rename_i r0 rest hfe
      have hneB : fetchBatch idOf table c B ≠ [] := by
        rw [hfe]
        simp
      have hLne : table.filter (fun r => c < idOf r) ≠ [] := by
        intro hc
        refine hneB ?_
        show List.take B (table.filter (fun r => c < idOf r)) = []
        rw [hc]
        simp
      have hK : 0 < n := by
        rcases Nat.eq_zero_or_pos n with h | h
        · rw [h] at hn
          exact absurd (List.length_eq_zero.mp hn) hLne
        · exact h
      have hdrop := filter_cursor_drop idOf table hs c B hneB
      have hsnd : (processPage process idOf (r0 :: rest)
          { st with fetches := st.fetches + 1, batchNum := st.batchNum + 1 } c).2 =
          ((r0 :: rest).map idOf).getLastD c :=
        processPage_snd _ _ _ _ _
      have hdrop2 : table.filter (fun r =>
          (processPage process idOf (r0 :: rest)
            { st with fetches := st.fetches + 1, batchNum := st.batchNum + 1 } c).2
            < idOf r) = (table.filter (fun r => c < idOf r)).drop B := by
        rw [hsnd, ← hfe]
        exact hdrop
      have hn2 : (table.filter (fun r =>
          (processPage process idOf (r0 :: rest)
            { st with fetches := st.fetches + 1, batchNum := st.batchNum + 1 } c).2
            < idOf r)).length = n - B := by
        rw [hdrop2, List.length_drop, hn]
      have hlt : n - B < n := by omega
      obtain ⟨g1, g2, g3, g4, g5, g6, g7⟩ := ih (n - B) hlt
        (processPage process idOf (r0 :: rest)
          { st with fetches := st.fetches + 1, batchNum := st.batchNum + 1 } c).2
        (processPage process idOf (r0 :: rest)
          { st with fetches := st.fetches + 1, batchNum := st.batchNum + 1 } c).1
        hn2
      have hrows : r0 :: rest = List.take B (table.filter (fun r => c < idOf r)) :=
        hfe.symm
      have hrlen : (r0 :: rest).length = min B n := by
        rw [hrows, List.length_take, hn]
      have hpp : processPage process idOf (r0 :: rest)
          { st with fetches := st.fetches + 1, batchNum := st.batchNum + 1 } c =
          (r0 :: rest).foldl (stepRow process idOf)
            ({ st with fetches := st.fetches + 1, batchNum := st.batchNum + 1 }, c) :=
        rfl
      have hsplitL : List.take B (table.filter (fun r => c < idOf r)) ++
          (table.filter (fun r => c < idOf r)).drop B =
          table.filter (fun r => c < idOf r) := List.take_append_drop _ _
      refine ⟨?_, ?_, ?_, ?_, ?_, ?_, ?_⟩
      · rw [g1, hpp, foldl_step_batchNum]
        show st.batchNum + 1 + (n - B + B - 1) / B = st.batchNum + (n + B - 1) / B
        rw [ceil_step n B hB hK]
        omega
      · rw [g2, hpp, foldl_step_fetches]
        show st.fetches + 1 + (n - B + B - 1) / B + 1 =
          st.fetches + (n + B - 1) / B + 1
        rw [ceil_step n B hB hK]
        omega
      · rw [g3, hdrop2, hpp, foldl_step_visited]
        show st.visited ++ (r0 :: rest).map idOf ++ _ = _
        rw [List.append_assoc, ← List.map_append, hrows, hsplitL]
      · rw [g4, hpp, foldl_step_totalRows]
        show st.totalRows + (r0 :: rest).length + (n - B) = st.totalRows + n
        rw [hrlen]
        omega
      · rw [g5, hdrop2, hpp, foldl_step_updated]
        show st.totalUpdated + (r0 :: rest).countP _ + _ = _
        rw [Nat.add_assoc, ← List.countP_append, hrows, hsplitL]
      · rw [g6, hdrop2, hpp, foldl_step_skipped]
        show st.totalSkipped + (r0 :: rest).countP _ + _ = _
        rw [Nat.add_assoc, ← List.countP_append, hrows, hsplitL]
      · rw [g7, hdrop2, hpp, foldl_step_writes]
        show st.writes ++ (r0 :: rest).flatMap _ ++ _ = _
        rw [List.append_assoc, ← List.flatMap_append, hrows, hsplitL]

/-! ## Dry-run invariants of the loop -/

theorem flatMap_nil_of {R W : Type} (f : R → List W) (hf : ∀ r, f r = [])
    (rows : List R) : rows.flatMap f = [] := by
  induction rows with
  | nil => rfl
  | cons a t ih =>
    rw [List.flatMap_cons, hf a, ih]
    rfl

theorem countP_zero_of {R : Type} (p : R → Bool) (hp : ∀ r, p r = false)
    (rows : List R) : rows.countP p = 0 := by
  induction rows with
  | nil => rfl
  | cons a t ih =>
    rw [List.countP_cons, hp a, ih]
    rfl

theorem processPage_writes_nil {R W : Type} (process : R → Bool × Bool × List W)
    (idOf : R → Int) (hpr : ∀ r, (process r).2.2 = []) (rows : List R)
    (st : MigStats W) (c : Int) :
    (processPage process idOf rows st c).1.writes = st.writes := by
  have h := foldl_step_writes process idOf rows (st, c)
  rw [show processPage process idOf rows st c =
    rows.foldl (stepRow process idOf) (st, c) from rfl, h,
    flatMap_nil_of _ hpr, List.append_nil]

theorem processPage_updated_zero {R W : Type} (process : R → Bool × Bool × List W)
    (idOf : R → Int) (hpr : ∀ r, (process r).1 = false) (rows : List R)
    (st : MigStats W) (c : Int) :
    (processPage process idOf rows st c).1.totalUpdated = st.totalUpdated := by
  have h := foldl_step_updated process idOf rows (st, c)
  rw [show processPage process idOf rows st c =
    rows.foldl (stepRow process idOf) (st, c) from rfl, h,
    countP_zero_of _ hpr]
  rfl

theorem migrateLoop_writes_nil {R W : Type} (process : R → Bool × Bool × List W)
    (idOf : R → Int) (table : List R) (B : Nat)
    (hpr : ∀ r, (process r).2.2 = []) :
    ∀ c (st : MigStats W), (migrateLoop process idOf table B c st).writes = st.writes := by
  intro c st
  induction c, st using migrateLoop.induct process idOf table B with
  | case1 c st hne =>
    rw [migrateLoop.eq_def]
    split
    · rfl
    · rename_i r0 rest heq
      rw [hne] at heq
      exact absurd heq (by simp)
  | case2 c st r0 rest hne p ih =>
    rw [migrateLoop.eq_def]
    split
    · rfl
    · rename_i r0a resta heq
      rw [hne] at heq
      injection heq with h1 h2
      subst h1
      subst h2
      exact ih.trans (processPage_writes_nil process idOf hpr _ _ _)

theorem migrateLoop_updated_zero {R W : Type} (process : R → Bool × Bool × List W)
    (idOf : R → Int) (table : List R) (B : Nat)
    (hpr : ∀ r, (process r).1 = false) :
    ∀ c (st : MigStats W),
    (migrateLoop process idOf table B c st).totalUpdated = st.totalUpdated := by
  intro c st
  induction c, st using migrateLoop.induct process idOf table B with
  | case1 c st hne =>
    rw [migrateLoop.eq_def]
    split
    · rfl
    · rename_i r0 rest heq
      rw [hne] at heq
      exact absurd heq (by simp)
  | case2 c st r0 rest hne p ih =>
    rw [migrateLoop.eq_def]
    split
    · rfl
    · rename_i r0a resta heq
      rw [hne] at heq
      injection heq with h1 h2
      subst h1
      subst h2
      exact ih.trans (processPage_updated_zero process idOf hpr _ _ _)

theorem processBulk_dry (bulkS3 : Str) (row : BulkRow) :
    processBulkRowRemoveTag bulkS3 row true = (false, true, []) ∨
    processBulkRowRemoveTag bulkS3 row true = (false, false, []) := by
  unfold processBulkRowRemoveTag
  split
  · exact Or.inl rfl
  · simp only []
    repeat' split
    all_goals first
      | exact Or.inl rfl
      | exact Or.inr rfl
      | (rename_i htt; simp at htt)

theorem processPartner_dry (unm : Str → Option (List (Str × JVal)))
    (mar : List (Str × JVal) → Str) (row : PartnerRow) :
    processPartnerRowRemoveTag unm mar row true = (false, true, []) ∨
    processPartnerRowRemoveTag unm mar row true = (false, false, []) := by
  unfold processPartnerRowRemoveTag
  split
  · exact Or.inl rfl
  · simp only []
    repeat' split
    all_goals first
      | exact Or.inl rfl
      | exact Or.inr rfl
      | (rename_i htt; simp at htt)

theorem processClient_dry (pfx : Str) (row : ClientRow) :
    processClientRowRemoveTag pfx row true = (false, true, []) ∨
    processClientRowRemoveTag pfx row true = (false, false, []) := by
  unfold processClientRowRemoveTag
  simp only []
  repeat' split
  all_goals first
    | exact Or.inl rfl
    | exact Or.inr rfl
    | (rename_i htt; simp at htt)

/-! ## JSON map and client column lemmas -/

theorem jLookup_jSet_same (m : List (Str × JVal)) (k : Str) (v : JVal) :
    jLookup (jSet m k v) k = some v := by
  induction m with
  | nil => simp [jSet, jLookup]
  | cons p rest ih =>
    simp only [jSet]
    by_cases hp : p.1 = k
    · rw [if_pos hp]
      simp [jLookup]
    · rw [if_neg hp]
      simp only [jLookup]
      rw [if_neg hp]
      exact ih

theorem jLookup_jSet_other (m : List (Str × JVal)) (k k' : Str) (v : JVal)
    (h : k' ≠ k) : jLookup (jSet m k v) k' = jLookup m k' := by
  induction m with
  | nil =>
    simp only [jSet, jLookup]
    rw [if_neg (fun hc => h hc.symm)]
  | cons p rest ih =>
    simp only [jSet]
    by_cases hp : p.1 = k
    · rw [if_pos hp]
      simp only [jLookup]
      rw [if_neg (fun hc => h hc.symm), if_neg (by rw [hp]; exact fun hc => h hc.symm)]
    · rw [if_neg hp]
      simp only [jLookup]
      by_cases hpk : p.1 = k'
      · rw [if_pos hpk, if_pos hpk]
      · rw [if_neg hpk, if_neg hpk]
        exact ih

theorem handleCol_append (pfx col : Str) (v : Option Str)
    (updates : List (Str × Str)) :
    handleCol pfx col v updates = updates ++ handleCol pfx col v [] := by
  unfold handleCol
  cases v with
  | none => simp
  | some s =>
    simp only []
    repeat' split
    all_goals simp

/-! ## Claim theorems: the migrators -/

/-- C2: with the dry-run flag enabled none of the three row processors
emits a write, and all three migration loops finish with an empty write
list, whatever the rows are. -/
theorem claim_C2 :
    (∀ (bulkS3 : Str) (row : BulkRow),
      (processBulkRowRemoveTag bulkS3 row true).2.2 = []) ∧
    (∀ (unm : Str → Option (List (Str × JVal))) (mar : List (Str × JVal) → Str)
      (row : PartnerRow), (processPartnerRowRemoveTag unm mar row true).2.2 = []) ∧
    (∀ (pfx : Str) (row : ClientRow),
      (processClientRowRemoveTag pfx row true).2.2 = []) ∧
    (∀ (bulkS3 : Str) (table : List BulkRow) (B : Nat),
      (migrateBulkRemoveTag bulkS3 true table B).writes = []) ∧
    (∀ (unm : Str → Option (List (Str × JVal))) (mar : List (Str × JVal) → Str)
      (table : List PartnerRow) (B : Nat),
      (migratePartnerRemoveTag unm mar true table B).writes = []) ∧
    (∀ (pfx : Str) (table : List ClientRow) (B : Nat),
      (migrateClientRemoveTag pfx true table B).writes = []) := by
  have hb : ∀ (bulkS3 : Str) (row : BulkRow),
      (processBulkRowRemoveTag bulkS3 row true).2.2 = [] := by
    intro bulkS3 row
    rcases processBulk_dry bulkS3 row with h | h <;> rw [h]
  have hp : ∀ (unm : Str → Option (List (Str × JVal))) (mar : List (Str × JVal) → Str)
      (row : PartnerRow), (processPartnerRowRemoveTag unm mar row true).2.2 = [] := by
    intro unm mar row
    rcases processPartner_dry unm mar row with h | h <;> rw [h]
  have hc : ∀ (pfx : Str) (row : ClientRow),
      (processClientRowRemoveTag pfx row true).2.2 = [] := by
    intro pfx row
    rcases processClient_dry pfx row with h | h <;> rw [h]
  refine ⟨hb, hp, hc, ?_, ?_, ?_⟩
  · intro bulkS3 table B
    exact migrateLoop_writes_nil _ _ table B (fun r => hb bulkS3 r) 0 {}
  · intro unm mar table B
    exact migrateLoop_writes_nil _ _ table B (fun r => hp unm mar r) 0 {}
  · intro pfx table B
    exact migrateLoop_writes_nil _ _ table B (fun r => hc pfx r) 0 {}

/-- C5: on a meta map whose `partner_pos_attach_files` entry is a list, the
partner transformation rewrites nothing iff the list is empty or no entry
changes; when it rewrites, the new map holds the entrywise-transformed list
under that key and every other key is untouched; the entry transformation
sanitizes exactly the string entries and passes every non-string entry
through unchanged. -/
theorem claim_C5 (metaMap : List (Str × JVal)) (files : List JVal)
    (h : jLookup metaMap metaKeyPPAF = some (JVal.jarr files)) :
    (processPartnerMeta metaMap = none ↔
      (files = [] ∨ ∀ item ∈ files, (jTransformFile item).2 = false)) ∧
    (∀ newMap, processPartnerMeta metaMap = some newMap →
      jLookup newMap metaKeyPPAF =
        some (JVal.jarr (files.map (fun i => (jTransformFile i).1))) ∧
      ∀ k, k ≠ metaKeyPPAF → jLookup newMap k = jLookup metaMap k) ∧
    (∀ s, jTransformFile (JVal.jstr s) =
      (JVal.jstr (if (removeTagParamsFromURL s).2 then (removeTagParamsFromURL s).1
        else s), (removeTagParamsFromURL s).2)) ∧
    (∀ item : JVal, (∀ s, item ≠ JVal.jstr s) → jTransformFile item = (item, false)) := by
  refine ⟨?_, ?_, ?_, ?_⟩
  · cases files with
    | nil =>
      simp only [processPartnerMeta, h]
      simp
    | cons f0 fs =>
      simp only [processPartnerMeta, h]
      by_cases hany : ((f0 :: fs).map jTransformFile).any (fun r => r.2) = true
      · rw [if_pos hany]
        constructor
        · intro hc
          exact absurd hc (by simp)
        · intro hc
          rcases hc with hc | hc
          · exact absurd hc (by simp)
          · exfalso
            rcases List.any_eq_true.mp hany with ⟨x, hxm, hx2⟩
            rcases List.mem_map.mp hxm with ⟨item, hitem, rfl⟩
            rw [hc item hitem] at hx2
            exact absurd hx2 (by simp)
      · rw [if_neg hany]
        constructor
        · intro _
          right
          intro item hitem
          have hfalse : ((f0 :: fs).map jTransformFile).any (fun r => r.2) = false := by
            revert hany
            cases ((f0 :: fs).map jTransformFile).any (fun r => r.2) <;> simp
          have := List.any_eq_false.mp hfalse (jTransformFile item)
            (List.mem_map.mpr ⟨item, hitem, rfl⟩)
          revert this
          cases (jTransformFile item).2 <;> simp
        · intro _
          rfl
  · intro newMap hnew
    cases files with
    | nil =>
      rw [show processPartnerMeta metaMap = none by simp only [processPartnerMeta, h]]
        at hnew
      exact absurd hnew (by simp)
    | cons f0 fs =>
      simp only [processPartnerMeta, h] at hnew
      split at hnew
      · rw [Option.some_inj] at hnew
        subst hnew
        refine ⟨?_, ?_⟩
        · rw [jLookup_jSet_same]
          rw [Option.some_inj, JVal.jarr.injEq, List.map_map]
          rfl
        · intro k hk
          exact jLookup_jSet_other metaMap metaKeyPPAF k _ hk
      · exact absurd hnew (by simp)
  · intro s
    unfold jTransformFile
    simp only []
    cases hb : (removeTagParamsFromURL s).2 with
    | true => rw [if_pos rfl, if_pos rfl]
    | false => rw [if_neg (by simp), if_neg (by simp)]
  · intro item hitem
    cases item with
    | jstr s => exact absurd rfl (hitem s)
    | jnull => rfl
    | jbool b => rfl
    | jnum q => rfl
    | jarr xs => rfl
    | jobj fields => rfl

theorem claim_C5_witness :
    jLookup [(strB "other", JVal.jnum 7), (metaKeyPPAF, JVal.jarr [JVal.jstr (strB "https://x/y?tag=1"), JVal.jnum 42, JVal.jstr (strB "https://z/w")])] metaKeyPPAF = some (JVal.jarr [JVal.jstr (strB "https://x/y?tag=1"), JVal.jnum 42, JVal.jstr (strB "https://z/w")]) ∧
    processPartnerMeta [(strB "other", JVal.jnum 7), (metaKeyPPAF, JVal.jarr [JVal.jstr (strB "https://x/y?tag=1"), JVal.jnum 42, JVal.jstr (strB "https://z/w")])] = some [(strB "other", JVal.jnum 7), (metaKeyPPAF, JVal.jarr [JVal.jstr (strB "https://x/y"), JVal.jnum 42, JVal.jstr (strB "https://z/w")])] ∧
    (processPartnerMeta [(strB "other", JVal.jnum 7), (metaKeyPPAF, JVal.jarr [JVal.jstr (strB "https://x/y?tag=1"), JVal.jnum 42, JVal.jstr (strB "https://z/w")])] = none ↔
      ([JVal.jstr (strB "https://x/y?tag=1"), JVal.jnum 42, JVal.jstr (strB "https://z/w")] = ([] : List JVal) ∨
       ∀ item ∈ [JVal.jstr (strB "https://x/y?tag=1"), JVal.jnum 42, JVal.jstr (strB "https://z/w")], (jTransformFile item).2 = false)) :=
  ⟨rfl, rfl,
   (claim_C5 [(strB "other", JVal.jnum 7), (metaKeyPPAF, JVal.jarr [JVal.jstr (strB "https://x/y?tag=1"), JVal.jnum 42, JVal.jstr (strB "https://z/w")])]
     [JVal.jstr (strB "https://x/y?tag=1"), JVal.jnum 42, JVal.jstr (strB "https://z/w")] rfl).1⟩

/-- C6 (amended): over a table of K matching rows with positive, strictly
ascending ids and batch size B > 0, the bulk cursor loop visits every row
exactly once in table (ascending-id) order, processes ceil(K/B) nonempty
batches, and performs ceil(K/B) + 1 fetch queries — the final fetch
returns zero rows and terminates the loop. -/
theorem claim_C6 (bulkS3 : Str) (dryRun : Bool) (table : List BulkRow) (B : Nat)
    (hB : 0 < B) (hsort : table.Pairwise (fun a b => a.id < b.id))
    (hpos : ∀ r ∈ table, 0 < r.id) :
    (migrateBulkRemoveTag bulkS3 dryRun table B).visited = table.map (fun r => r.id) ∧
    (migrateBulkRemoveTag bulkS3 dryRun table B).totalRows = table.length ∧
    (migrateBulkRemoveTag bulkS3 dryRun table B).batchNum =
      (table.length + B - 1) / B ∧
    (migrateBulkRemoveTag bulkS3 dryRun table B).fetches =
      (table.length + B - 1) / B + 1 := by
  have hfil : table.filter (fun r => (0 : Int) < r.id) = table :=
    List.filter_eq_self.mpr (fun x hx => decide_eq_true (hpos x hx))
  obtain ⟨g1, g2, g3, g4, _, _, _⟩ :=
    migrateLoop_run (fun r => processBulkRowRemoveTag bulkS3 r dryRun)
      (fun r => r.id) table B hB hsort table.length 0 {} (by rw [hfil])
  refine ⟨?_, ?_, ?_, ?_⟩
  · rw [show migrateBulkRemoveTag bulkS3 dryRun table B =
      migrateLoop (fun r => processBulkRowRemoveTag bulkS3 r dryRun)
        (fun r => r.id) table B 0 {} from rfl, g3, hfil]
    simp
  · rw [show migrateBulkRemoveTag bulkS3 dryRun table B =
      migrateLoop (fun r => processBulkRowRemoveTag bulkS3 r dryRun)
        (fun r => r.id) table B 0 {} from rfl, g4]
    simp
  · rw [show migrateBulkRemoveTag bulkS3 dryRun table B =
      migrateLoop (fun r => processBulkRowRemoveTag bulkS3 r dryRun)
        (fun r => r.id) table B 0 {} from rfl, g1]
    simp
  · rw [show migrateBulkRemoveTag bulkS3 dryRun table B =
      migrateLoop (fun r => processBulkRowRemoveTag bulkS3 r dryRun)
        (fun r => r.id) table B 0 {} from rfl, g2]
    simp

theorem claim_C6_witness :
    0 < 2 ∧
    (migrateBulkRemoveTag [] false [{ id := 1, archiveFile := none }, { id := 2, archiveFile := none }, { id := 3, archiveFile := none }] 2).visited = [1, 2, 3] ∧
    (migrateBulkRemoveTag [] false [{ id := 1, archiveFile := none }, { id := 2, archiveFile := none }, { id := 3, archiveFile := none }] 2).batchNum = 2 ∧
    (migrateBulkRemoveTag [] false [{ id := 1, archiveFile := none }, { id := 2, archiveFile := none }, { id := 3, archiveFile := none }] 2).fetches = 3 := by
  obtain ⟨hv, _, hbn, hf⟩ := claim_C6 [] false
    [{ id := 1, archiveFile := none }, { id := 2, archiveFile := none }, { id := 3, archiveFile := none }]
    2 (by decide) (by decide) (by decide)
  exact ⟨by decide, hv.trans (by decide), hbn.trans (by decide), hf.trans (by decide)⟩

/-- C6, the failing clause: the loop performs one more fetch query than
ceil(K/B) — the final, empty fetch that detects termination. With K = 1
matching row and B = 2 the code performs 2 fetches, not ceil(1/2) = 1. -/
theorem claim_C6_cex :
    (migrateBulkRemoveTag [] false [{ id := 1, archiveFile := none }] 2).fetches = 2 ∧
    (1 + 2 - 1) / 2 = 1 ∧ (2 : Nat) ≠ 1 := by
  refine ⟨?_, by norm_num, by norm_num⟩
  obtain ⟨_, hf, _, _, _, _, _⟩ :=
    migrateLoop_run (fun r => processBulkRowRemoveTag [] r false)
      (fun r => r.id) [{ id := 1, archiveFile := none }] 2 (by norm_num)
      (by decide) 1 0 {} (by decide)
  exact hf.trans (by norm_num)

/-- C7 (amended): in dry-run mode the row processors return updated=false
even for rows whose transformation produced a change, so the loop's
reported updated total is always 0 — a live run counts exactly the changed
rows instead. -/
theorem claim_C7 :
    (∀ (bulkS3 : Str) (row : BulkRow),
      (processBulkRowRemoveTag bulkS3 row true).1 = false) ∧
    (∀ (unm : Str → Option (List (Str × JVal))) (mar : List (Str × JVal) → Str)
      (row : PartnerRow), (processPartnerRowRemoveTag unm mar row true).1 = false) ∧
    (∀ (pfx : Str) (row : ClientRow),
      (processClientRowRemoveTag pfx row true).1 = false) ∧
    (∀ (bulkS3 : Str) (table : List BulkRow) (B : Nat),
      (migrateBulkRemoveTag bulkS3 true table B).totalUpdated = 0) ∧
    (∀ (unm : Str → Option (List (Str × JVal))) (mar : List (Str × JVal) → Str)
      (table : List PartnerRow) (B : Nat),
      (migratePartnerRemoveTag unm mar true table B).totalUpdated = 0) ∧
    (∀ (pfx : Str) (table : List ClientRow) (B : Nat),
      (migrateClientRemoveTag pfx true table B).totalUpdated = 0) := by
  have hb : ∀ (bulkS3 : Str) (row : BulkRow),
      (processBulkRowRemoveTag bulkS3 row true).1 = false := by
    intro bulkS3 row
    rcases processBulk_dry bulkS3 row with h | h <;> rw [h]
  have hp : ∀ (unm : Str → Option (List (Str × JVal))) (mar : List (Str × JVal) → Str)
      (row : PartnerRow), (processPartnerRowRemoveTag unm mar row true).1 = false := by
    intro unm mar row
    rcases processPartner_dry unm mar row with h | h <;> rw [h]
  have hc : ∀ (pfx : Str) (row : ClientRow),
      (processClientRowRemoveTag pfx row true).1 = false := by
    intro pfx row
    rcases processClient_dry pfx row with h | h <;> rw [h]
  refine ⟨hb, hp, hc, ?_, ?_, ?_⟩
  · intro bulkS3 table B
    exact migrateLoop_updated_zero _ _ table B (fun r => hb bulkS3 r) 0 {}
  · intro unm mar table B
    exact migrateLoop_updated_zero _ _ table B (fun r => hp unm mar r) 0 {}
  · intro pfx table B
    exact migrateLoop_updated_zero _ _ table B (fun r => hc pfx r) 0 {}

/-- C7, the failing clause: a row whose URL does change is counted in a
live run (updated total 1) but not in a dry run (updated total 0), so the
dry-run "would update" count is not tracked the same as a live run's. -/
theorem claim_C7_cex :
    (processBulkRowRemoveTag [] { id := 1, archiveFile := some (strB "https://e/p?tag=1") } false).1 = true ∧
    (processBulkRowRemoveTag [] { id := 1, archiveFile := some (strB "https://e/p?tag=1") } true).1 = false ∧
    (migrateBulkRemoveTag [] false [{ id := 1, archiveFile := some (strB "https://e/p?tag=1") }] 200).totalUpdated = 1 ∧
    (migrateBulkRemoveTag [] true [{ id := 1, archiveFile := some (strB "https://e/p?tag=1") }] 200).totalUpdated = 0 := by
  refine ⟨by decide, by decide, ?_, ?_⟩
  · obtain ⟨_, _, _, _, hu, _, _⟩ :=
      migrateLoop_run (fun r => processBulkRowRemoveTag [] r false)
        (fun r => r.id) [{ id := 1, archiveFile := some (strB "https://e/p?tag=1") }]
        200 (by norm_num) (by decide) 1 0 {} (by decide)
    exact hu.trans (by decide)
  · obtain ⟨_, _, _, _, hu, _, _⟩ :=
      migrateLoop_run (fun r => processBulkRowRemoveTag [] r true)
        (fun r => r.id) [{ id := 1, archiveFile := some (strB "https://e/p?tag=1") }]
        200 (by norm_num) (by decide) 1 0 {} (by decide)
    exact hu.trans (by decide)

/-- C8: the bulk URL normalizer returns its input unchanged when the
configured prefix is empty, the input is empty, parsing fails, or the
extracted filename is empty; otherwise it returns the prefix with any
trailing slash removed, a slash, and the final path segment. -/
theorem claim_C8 (bulkS3 rawURL : Str) :
    ((bulkS3 = [] ∨ rawURL = [] ∨ urlParse rawURL = none ∨
      (∃ u, urlParse rawURL = some u ∧
        (splitB (trimSlashes u.path) 47).getLastD [] = [])) →
      normalizeBulkArchiveURL bulkS3 rawURL = rawURL) ∧
    (∀ (u : GoURL) (fn : Str), bulkS3 ≠ [] → rawURL ≠ [] →
      urlParse rawURL = some u →
      (splitB (trimSlashes u.path) 47).getLast? = some fn → fn ≠ [] →
      normalizeBulkArchiveURL bulkS3 rawURL = trimRightSlash bulkS3 ++ 47 :: fn) := by
  constructor
  · intro h
    unfold normalizeBulkArchiveURL
    by_cases hc : (bulkS3 = [] || rawURL = []) = true
    · rw [if_pos hc]
    · rw [if_neg hc]
      rcases h with h | h | h | ⟨u, hu, hlast⟩
      · exact absurd (by rw [h]; simp) hc
      · exact absurd (by rw [h]; simp) hc
      · rw [h]
      · rw [hu]
        simp only []
        cases hgl : (splitB (trimSlashes u.path) 47).getLast? with
        | none => rfl
        | some fn =>
          have hfn : fn = [] := by
            rw [List.getLastD_eq_getLast?, hgl] at hlast
            exact hlast
          subst hfn
          rfl
  · intro u fn h1 h2 hp hl hfne
    unfold normalizeBulkArchiveURL
    rw [if_neg (by simp [h1, h2]), hp]
    simp only []
    rw [hl]
    simp only []
    rw [if_neg hfne]

theorem claim_C8_witness :
    urlParse (strB "https://old.example.com/a/b/file_123.xlsx") =
      some { scheme := strB "https", host := strB "old.example.com", path := strB "/a/b/file_123.xlsx" } ∧
    normalizeBulkArchiveURL (strB "https://new.example.com")
      (strB "https://old.example.com/a/b/file_123.xlsx") =
      strB "https://new.example.com/file_123.xlsx" := by
  refine ⟨by decide, ?_⟩
  have h := (claim_C8 (strB "https://new.example.com")
      (strB "https://old.example.com/a/b/file_123.xlsx")).2
    { scheme := strB "https", host := strB "old.example.com", path := strB "/a/b/file_123.xlsx" }
    (strB "file_123.xlsx") (by decide) (by decide) (by decide) (by decide) (by decide)
  exact h.trans (by decide)

/-- C9: the client processor builds its update set per column
independently — a null, blank, prefix-less or unchanged column contributes
nothing and a changed one contributes exactly its own (column, newURL)
pair — and a live run issues exactly one write carrying exactly that
update set when it is nonempty, and no write when it is empty. -/
theorem claim_C9 (pfx : Str) (row : ClientRow) :
    clientUpdates pfx row =
      handleCol pfx colContract row.clientContractAttachment [] ++
      handleCol pfx colTax row.clientTaxAttachment [] ++
      handleCol pfx colPks row.clientPksAttachment [] ∧
    (∀ col : Str, handleCol pfx col none [] = []) ∧
    (∀ (col : Str) (s : Str), handleCol pfx col (some s) [] =
      (if (trimSpace s ≠ [] ∧ hasPrefixB (trimSpace s) pfx = true ∧
          (removeTagParamsFromURL (trimSpace s)).2 = true)
        then [(col, (removeTagParamsFromURL (trimSpace s)).1)] else [])) ∧
    processClientRowRemoveTag pfx row false =
      (if clientUpdates pfx row = [] then (false, true, [])
        else (true, false, [(row.clientId, clientUpdates pfx row)])) := by
  refine ⟨?_, fun col => rfl, ?_, ?_⟩
  · unfold clientUpdates
    rw [handleCol_append pfx colPks, handleCol_append pfx colTax,
      handleCol_append pfx colContract]
  · intro col s
    unfold handleCol
    simp only []
    by_cases h1 : trimSpace s = []
    · rw [if_pos h1, if_neg (by simp [h1])]
    · rw [if_neg h1]
      by_cases h2 : hasPrefixB (trimSpace s) pfx = false
      · rw [if_pos h2, if_neg (by simp [h2])]
      · rw [if_neg h2]
        have h2t : hasPrefixB (trimSpace s) pfx = true := by
          revert h2
          cases hasPrefixB (trimSpace s) pfx <;> simp
        by_cases h3 : (removeTagParamsFromURL (trimSpace s)).2 = true
        · rw [if_pos h3, if_pos ⟨h1, h2t, h3⟩]
          simp
        · rw [if_neg h3, if_neg (by simp [h3])]
  · unfold processClientRowRemoveTag
    by_cases h : clientUpdates pfx row = []
    · rw [if_pos h, if_pos h]
    · rw [if_neg h, if_neg h]
      rw [if_neg (by simp)]

theorem claim_C9_witness :
    clientUpdates (strB "https://hydra/")
      { clientId := 7, clientContractAttachment := some (strB "https://hydra/a?tag=1"), clientTaxAttachment := some (strB "https://other/b?tag=1"), clientPksAttachment := some (strB "https://hydra/c?tag=1&x=2") } =
      [(colContract, strB "https://hydra/a"), (colPks, strB "https://hydra/c?x=2")] ∧
    processClientRowRemoveTag (strB "https://hydra/")
      { clientId := 7, clientContractAttachment := some (strB "https://hydra/a?tag=1"), clientTaxAttachment := some (strB "https://other/b?tag=1"), clientPksAttachment := some (strB "https://hydra/c?tag=1&x=2") } false =
      (true, false, [(7, [(colContract, strB "https://hydra/a"), (colPks, strB "https://hydra/c?x=2")])]) := by
  refine ⟨?_, rfl⟩
  exact ((claim_C9 (strB "https://hydra/")
    { clientId := 7, clientContractAttachment := some (strB "https://hydra/a?tag=1"), clientTaxAttachment := some (strB "https://other/b?tag=1"), clientPksAttachment := some (strB "https://hydra/c?tag=1&x=2") }).1).trans
    (by decide)

end RollbackUrlTagging
